import Mathlib

/-!
The gocsv encoder (`encode.go`): a shallow embedding.

The encoder of `reillywatson/gocsv` turns a container of structs (`writeTo`) or a
channel of structs (`writeFromChan`) into rows handed to a CSV writer.

Modelling choices, all visible in the definitions below:

* `reflect.Type` is the inductive `GoType`; `Kind` is computed from it.
* `reflect.Value` is an abstract type `V`; the reflection calls the encoder makes
  on it (`Len`, `Index`, `Elem`, `FieldByIndex`) and the two helpers of the
  repository that live outside `encode.go` (`getStructInfo`, `getFieldAsString`)
  are the fields of `Reflect V`.  Run-time panics of `reflect` are not modelled.
* The CSV writer is a state machine `SafeCSVWriter σ`; `Sink σ` pairs its state
  with the log of the calls made on it, each `Write` with the result it returned.
* A Go `map[string]int` is an association list with one entry per key; the order
  in which a `range` statement visits it is a parameter (`MapRange`).
* Go `int` counters are `Int` (a counter is bounded by rows times fields).
* A channel is the finite list of the items it yields before it is closed.
* A call is modelled on its own: `getStructInfo` yields the descriptor list of the
  record type, and the call shrinks its own copy of it.

The development first relates each entry point to a `Plan` (the rows it asks the
writer to take, whatever the writer answers) and then reads the claims off the plan.
-/

namespace gocsv

/-! ## Types and kinds -/

/-- The kinds of `reflect.Kind` that the model distinguishes. -/
inductive Kind
  | Bool | Int | Float64 | String | Interface | Func
  | Struct | Ptr | Slice | Array | Map | Chan
  deriving DecidableEq, Repr

/-- A Go type as seen through `reflect.Type`. -/
inductive GoType
  | bool | int | float64 | string | iface | func
  | struct (name : String)
  | ptr (elem : GoType)
  | slice (elem : GoType)
  | array (len : Nat) (elem : GoType)
  | map (key : GoType) (elem : GoType)
  | chan (elem : GoType)
  deriving DecidableEq, Repr

/-- The method `reflect.Type.Kind`. -/
def GoType.Kind : GoType → Kind
  | .bool => .Bool
  | .int => .Int
  | .float64 => .Float64
  | .string => .String
  | .iface => .Interface
  | .func => .Func
  | .struct _ => .Struct
  | .ptr _ => .Ptr
  | .slice _ => .Slice
  | .array _ _ => .Array
  | .map _ _ => .Map
  | .chan _ => .Chan

/-- The method `reflect.Type.Elem`.  On a type without an element type `reflect`
panics; the encoder only calls it behind a kind check, and the model returns the
type itself there. -/
def GoType.Elem : GoType → GoType
  | .ptr e => e
  | .slice e => e
  | .array _ e => e
  | .map _ e => e
  | .chan e => e
  | t => t

/-- The method `reflect.Type.String`. -/
def GoType.String : GoType → String
  | .bool => "bool"
  | .int => "int"
  | .float64 => "float64"
  | .string => "string"
  | .iface => "interface \x7b\x7d"
  | .func => "func()"
  | .struct name => name
  | .ptr e => "*" ++ e.String
  | .slice e => "[]" ++ e.String
  | .array n e => "[" ++ toString n ++ "]" ++ e.String
  | .map k e => "map[" ++ k.String ++ "]" ++ e.String
  | .chan e => "chan " ++ e.String

/-- A Go `error` value built by `fmt.Errorf`: its message. -/
structure GoError where
  msg : String
  deriving DecidableEq, Repr

/-- Results of a projection can be compared. -/
instance decEqResult : DecidableEq (Except GoError String)
  | .ok a, .ok b => if h : a = b then isTrue (by rw [h]) else isFalse (fun h1 => h (by cases h1; rfl))
  | .error a, .error b =>
    if h : a = b then isTrue (by rw [h]) else isFalse (fun h1 => h (by cases h1; rfl))
  | .ok _, .error _ => isFalse (fun h => by cases h)
  | .error _, .ok _ => isFalse (fun h => by cases h)

/-- Modelled from the spec: the type `fieldInfo` is declared outside `encode.go`.
A descriptor has a lookup key (what `getFirstKey` returns), an omit-if-empty flag
and the index chain that reaches the field inside a record. -/
structure fieldInfo where
  key : String
  omitEmpty : Bool
  IndexChain : List Nat
  deriving DecidableEq, Repr

/-- Modelled from the spec: `firstKey() -> string` of a descriptor. -/
def fieldInfo.getFirstKey (f : fieldInfo) : String := f.key

/-- The reflection operations the encoder calls on values, and the two helpers
of the repository that are declared outside `encode.go`. -/
structure Reflect (V : Type) where
  /-- The call `reflect.Value.Len` on a container. -/
  Len : V → Nat
  /-- The call `reflect.Value.Index` on a container. -/
  Index : V → Nat → V
  /-- The call `reflect.Value.Elem` on a pointer. -/
  Elem : V → V
  /-- The call `reflect.Value.FieldByIndex` on a record. -/
  FieldByIndex : V → List Nat → V
  /-- The helper `getStructInfo(t).Fields`. -/
  getStructInfo : GoType → List fieldInfo
  /-- The helper `getFieldAsString`. -/
  getFieldAsString : V → Except GoError String

/-- A Go `interface{}` value: a dynamic type and a value. -/
structure Iface (V : Type) where
  typ : GoType
  val : V

/-- Modelled from the spec: `getConcreteReflectValueAndType` is declared outside
`encode.go`; it yields the concrete (non-pointer) shape of its argument, taking
one pointer away when the argument is a pointer. -/
def getConcreteReflectValueAndType {V : Type} (R : Reflect V) (x : Iface V) : V × GoType :=
  if x.typ.Kind = Kind.Ptr then (R.Elem x.val, x.typ.Elem) else (x.val, x.typ)

/-- Modelled from the spec: `getConcreteContainerInnerType` is declared outside
`encode.go`; it yields the element type of the container after at most one
pointer dereference, and whether a pointer was taken away. -/
def getConcreteContainerInnerType (t : GoType) : Bool × GoType :=
  if t.Elem.Kind = Kind.Ptr then (true, t.Elem.Elem) else (false, t.Elem)

/-! ## The shape checks -/

/-- The function `ensureStructOrPtr`: `none` is the `nil` error. -/
def ensureStructOrPtr (t : GoType) : Option GoError :=
  match t.Kind with
  | .Struct => none
  | .Ptr => none
  | _ => some ⟨"cannot use " ++ t.String ++ ", only slice or array supported"⟩

/-- The function `ensureInType`. -/
def ensureInType (outType : GoType) : Option GoError :=
  match outType.Kind with
  | .Slice => none
  | .Array => none
  | _ => some ⟨"cannot use " ++ outType.String ++ ", only slice or array supported"⟩

/-- The function `ensureInInnerType`. -/
def ensureInInnerType (outInnerType : GoType) : Option GoError :=
  match outInnerType.Kind with
  | .Struct => none
  | _ => some ⟨"cannot use " ++ outInnerType.String ++ ", only struct supported"⟩

/-- The function `getInnerField`. -/
def getInnerField {V : Type} (R : Reflect V) (outInner : V) (outInnerWasPointer : Bool)
    (index : List Nat) : Except GoError String :=
  let oi := if outInnerWasPointer then R.Elem outInner else outInner
  R.getFieldAsString (R.FieldByIndex oi index)

/-! ## The CSV writer -/

/-- The type `SafeCSVWriter`, declared outside `encode.go`: the three methods the
encoder calls, as transitions of a state `σ`. -/
structure SafeCSVWriter (σ : Type) where
  /-- The method `Write(row) error`. -/
  Write : σ → List String → σ × Option GoError
  /-- The method `Flush()`. -/
  Flush : σ → σ
  /-- The method `Error() error`. -/
  Error : σ → Option GoError

/-- One call made on the writer; a `Write` is logged with the error it returned. -/
inductive Call
  | Write (row : List String) (res : Option GoError)
  | Flush
  deriving DecidableEq, Repr

/-- The row of a logged call, when it is a `Write`. -/
def Call.row? : Call → Option (List String)
  | .Write row _ => some row
  | .Flush => none

/-- The error a logged call returned (`Flush` returns nothing). -/
def Call.err? : Call → Option GoError
  | .Write _ res => res
  | .Flush => none

/-- A writer state together with the log of the calls made so far. -/
structure Sink (σ : Type) where
  st : σ
  calls : List Call

/-- A writer on which no call has been made. -/
def Sink.fresh {σ : Type} (s : σ) : Sink σ := ⟨s, []⟩

/-- Calling `writer.Write(row)`. -/
def Sink.Write {σ : Type} (w : SafeCSVWriter σ) (s : Sink σ) (row : List String) :
    Sink σ × Option GoError :=
  (⟨(w.Write s.st row).1, s.calls ++ [Call.Write row (w.Write s.st row).2]⟩, (w.Write s.st row).2)

/-- Calling `writer.Flush()`. -/
def Sink.Flush {σ : Type} (w : SafeCSVWriter σ) (s : Sink σ) : Sink σ :=
  ⟨w.Flush s.st, s.calls ++ [Call.Flush]⟩

/-! ## The counter map `headersToOmit` -/

/-- The type `headersToOmit`, a `map[string]int`: one entry per key. -/
abbrev headersToOmit := List (String × Int)

/-- The assignment `m[k] = v`. -/
def headersToOmit.set : headersToOmit → String → Int → headersToOmit
  | [], k, v => [(k, v)]
  | (k0, v0) :: m, k, v =>
    if k0 = k then (k0, v) :: m else (k0, v0) :: headersToOmit.set m k v

/-- The lookup `m[k]`, zero for a key that is absent. -/
def headersToOmit.get : headersToOmit → String → Int
  | [], _ => 0
  | (k0, v0) :: m, k => if k0 = k then v0 else headersToOmit.get m k

/-- The order in which the `n`-th `range` statement of a call visits a map: Go
leaves it unspecified, so it is a parameter.  It is meaningful when it permutes
the entries (`MapRange.Valid`). -/
abbrev MapRange := Nat → headersToOmit → List (String × Int)

/-- A map range visits every entry exactly once. -/
def MapRange.Valid (ω : MapRange) : Prop := ∀ n m, (ω n m).Perm m

/-- The method `anyToOmit`, visiting the entries in the given order. -/
def anyToOmit : List (String × Int) → Bool
  | [] => false
  | (_, value) :: rest => if value ≠ -1 then true else anyToOmit rest

/-! ## `writeTo` -/

/-- The first loop of `writeTo`: for each descriptor, in order, enter its key in
the counter map (`-1` when it is not `omitEmpty`, `0` when it is) and store the
key in slot `i` of `csvHeadersLabels`. -/
def headerLoop : List fieldInfo → Nat → List String → headersToOmit → List String × headersToOmit
  | [], _, labels, toOmit => (labels, toOmit)
  | fieldInfo :: rest, i, labels, toOmit =>
    headerLoop rest (i + 1) (labels.set i fieldInfo.getFirstKey)
      (if !fieldInfo.omitEmpty then toOmit.set fieldInfo.getFirstKey (-1)
       else toOmit.set fieldInfo.getFirstKey 0)

/-- The inner loop of the pre-pass, over the descriptors, for one record. -/
def countRow {V : Type} (R : Reflect V) (rec : V) (wasPointer : Bool) :
    List fieldInfo → headersToOmit → Except GoError headersToOmit
  | [], toOmit => .ok toOmit
  | fieldInfo :: rest, toOmit =>
    match getInnerField R rec wasPointer fieldInfo.IndexChain with
    | .error err => .error err
    | .ok inInnerFieldValue =>
      countRow R rec wasPointer rest
        (if inInnerFieldValue = "" then
          toOmit.set fieldInfo.getFirstKey (toOmit.get fieldInfo.getFirstKey + 1)
         else toOmit)

/-- The outer loop of the pre-pass, over the row indices. -/
def countRows {V : Type} (R : Reflect V) (inValue : V) (wasPointer : Bool)
    (fields : List fieldInfo) : List Nat → headersToOmit → Except GoError headersToOmit
  | [], toOmit => .ok toOmit
  | i :: rest, toOmit =>
    match countRow R (R.Index inValue i) wasPointer fields toOmit with
    | .error err => .error err
    | .ok toOmit1 => countRows R inValue wasPointer fields rest toOmit1

/-- The scan `for i, header := range csvHeadersLabels` up to its `break`: the
first index at which the header equals `key`. -/
def firstMatch (key : String) : List String → Nat → Option Nat
  | [], _ => none
  | header :: rest, i => if key = header then some i else firstMatch key rest (i + 1)

/-- The body of the elision loop once the counter equals the row count: remove
the first column whose header is `key` from both lists (`append(s[:i], s[i+1:]...)`). -/
def removeColumn (key : String) (cols : List String × List fieldInfo) :
    List String × List fieldInfo :=
  match firstMatch key cols.1 0 with
  | some i => (cols.1.eraseIdx i, cols.2.eraseIdx i)
  | none => cols

/-- The elision loop `for key, emptyColumns := range csvHeadersLabelsToOmit`, over
the entries in the order the range visits them. -/
def elide (inLen : Nat) : List (String × Int) → List String × List fieldInfo →
    List String × List fieldInfo
  | [], cols => cols
  | (key, emptyColumns) :: rest, cols =>
    elide inLen rest (if emptyColumns = (inLen : Int) then removeColumn key cols else cols)

/-- The block `if csvHeadersLabelsToOmit.anyToOmit()` of `writeTo`: the pre-pass
and the elision.  It yields the header labels and the descriptors that remain, or
the projection error of the pre-pass. -/
def omitStage {V : Type} (R : Reflect V) (ω : MapRange) (inValue : V) (wasPointer : Bool)
    (fields : List fieldInfo) (labels : List String) (toOmit : headersToOmit) :
    Except GoError (List String × List fieldInfo) :=
  if anyToOmit (ω 0 toOmit) then
    match countRows R inValue wasPointer fields (List.range (R.Len inValue)) toOmit with
    | .error err => .error err
    | .ok counted => .ok (elide (R.Len inValue) (ω 1 counted) (labels, fields))
  else .ok (labels, fields)

/-- The loop `for j, fieldInfo := range inInnerStructInfo.Fields` that fills the
row buffer `csvHeadersLabels` for one record. -/
def fillRow {V : Type} (R : Reflect V) (rec : V) (wasPointer : Bool) :
    List fieldInfo → Nat → List String → Except GoError (List String)
  | [], _, labels => .ok labels
  | fieldInfo :: rest, j, labels =>
    match getInnerField R rec wasPointer fieldInfo.IndexChain with
    | .error err => .error err
    | .ok inInnerFieldValue =>
      fillRow R rec wasPointer rest (j + 1) ((labels.set j "").set j inInnerFieldValue)

/-- The emission loop of `writeTo` over the row indices: fill the buffer, write
it, stop at the first error.  The error is `none` when the loop ran to its end. -/
def writeRows {V σ : Type} (R : Reflect V) (w : SafeCSVWriter σ) (inValue : V)
    (wasPointer : Bool) (fields : List fieldInfo) :
    List Nat → List String → Sink σ → Sink σ × Option GoError
  | [], _, writer => (writer, none)
  | i :: rest, labels, writer =>
    match fillRow R (R.Index inValue i) wasPointer fields 0 labels with
    | .error err => (writer, some err)
    | .ok row =>
      match (Sink.Write w writer row).2 with
      | some err => ((Sink.Write w writer row).1, some err)
      | none => writeRows R w inValue wasPointer fields rest row (Sink.Write w writer row).1

/-- The tail of `writeTo` from `if !omitHeaders` on, given the labels and the
descriptors that remain. -/
def writeToEmit {V σ : Type} (R : Reflect V) (w : SafeCSVWriter σ) (writer : Sink σ)
    (inValue : V) (wasPointer : Bool) (omitHeaders : Bool)
    (cols : List String × List fieldInfo) : Sink σ × Option GoError :=
  let afterHeader : Sink σ × Option GoError :=
    if !omitHeaders then Sink.Write w writer cols.1 else (writer, none)
  match afterHeader.2 with
  | some err => (afterHeader.1, some err)
  | none =>
    match writeRows R w inValue wasPointer cols.2 (List.range (R.Len inValue)) cols.1
        afterHeader.1 with
    | (writer1, some err) => (writer1, some err)
    | (writer1, none) => (Sink.Flush w writer1, w.Error (Sink.Flush w writer1).st)

/-- The function `writeTo`.  It returns the writer after the call and the error
(`none` for `nil`). -/
def writeTo {V σ : Type} (R : Reflect V) (w : SafeCSVWriter σ) (ω : MapRange)
    (writer : Sink σ) (x : Iface V) (omitHeaders : Bool) : Sink σ × Option GoError :=
  let inValue := (getConcreteReflectValueAndType R x).1
  let inType := (getConcreteReflectValueAndType R x).2
  match ensureInType inType with
  | some err => (writer, some err)
  | none =>
    let inInnerWasPointer := (getConcreteContainerInnerType inType).1
    let inInnerType := (getConcreteContainerInnerType inType).2
    match ensureInInnerType inInnerType with
    | some err => (writer, some err)
    | none =>
      let fields := R.getStructInfo inInnerType
      let init := headerLoop fields 0 (List.replicate fields.length "") []
      match omitStage R ω inValue inInnerWasPointer fields init.1 init.2 with
      | .error err => (writer, some err)
      | .ok cols => writeToEmit R w writer inValue inInnerWasPointer omitHeaders cols

/-! ## `writeFromChan` -/

/-- The header loop of `writeFromChan`: store each key in its slot. -/
def labelLoop : List fieldInfo → Nat → List String → List String
  | [], _, labels => labels
  | fieldInfo :: rest, i, labels => labelLoop rest (i + 1) (labels.set i fieldInfo.getFirstKey)

/-- The closure `write` of `writeFromChan`: fill the shared buffer from one value
and write it.  It returns the writer, the buffer and the error. -/
def chanWrite {V σ : Type} (R : Reflect V) (w : SafeCSVWriter σ) (wasPointer : Bool)
    (fields : List fieldInfo) (val : V) (labels : List String) (writer : Sink σ) :
    Sink σ × List String × Option GoError :=
  match fillRow R val wasPointer fields 0 labels with
  | .error err => (writer, labels, some err)
  | .ok row => ((Sink.Write w writer row).1, row, (Sink.Write w writer row).2)

/-- The loop `for v := range c` of `writeFromChan` over the items still to come. -/
def chanLoop {V σ : Type} (R : Reflect V) (w : SafeCSVWriter σ) (inType : GoType)
    (wasPointer : Bool) (fields : List fieldInfo) :
    List (Iface V) → List String → Sink σ → Sink σ × Option GoError
  | [], _, writer => (writer, none)
  | v :: rest, labels, writer =>
    let val := (getConcreteReflectValueAndType R v).1
    match ensureStructOrPtr inType with
    | some err => (writer, some err)
    | none =>
      match chanWrite R w wasPointer fields val labels writer with
      | (writer1, _, some err) => (writer1, some err)
      | (writer1, labels1, none) => chanLoop R w inType wasPointer fields rest labels1 writer1

/-- The function `writeFromChan`; the channel is the list of the items it yields
before it is closed. -/
def writeFromChan {V σ : Type} (R : Reflect V) (w : SafeCSVWriter σ) (writer : Sink σ)
    (c : List (Iface V)) : Sink σ × Option GoError :=
  match c with
  | [] => (writer, some ⟨"channel is closed"⟩)
  | firstValue :: rest =>
    let inValue := (getConcreteReflectValueAndType R firstValue).1
    let inType := (getConcreteReflectValueAndType R firstValue).2
    match ensureStructOrPtr inType with
    | some err => (writer, some err)
    | none =>
      let inInnerWasPointer := decide (inType.Kind = Kind.Ptr)
      let fields := R.getStructInfo inType
      let csvHeadersLabels := labelLoop fields 0 (List.replicate fields.length "")
      match (Sink.Write w writer csvHeadersLabels).2 with
      | some err => ((Sink.Write w writer csvHeadersLabels).1, some err)
      | none =>
        match chanWrite R w inInnerWasPointer fields inValue csvHeadersLabels
            (Sink.Write w writer csvHeadersLabels).1 with
        | (writer1, _, some err) => (writer1, some err)
        | (writer1, labels1, none) =>
          match chanLoop R w inType inInnerWasPointer fields rest labels1 writer1 with
          | (writer2, some err) => (writer2, some err)
          | (writer2, none) => (Sink.Flush w writer2, w.Error (Sink.Flush w writer2).st)

/-! ## Concrete instances, for evaluating the encoder -/

/-- A small universe of values: strings, fields without a string form, records,
containers and pointers. -/
inductive Val
  | str (s : String)
  | unsupported
  | record (cells : List Val)
  | items (elems : List Val)
  | ptr (target : Val)

/-- Navigation along an index chain of a `Val`. -/
def Val.fieldByIndex : Val → List Nat → Val
  | v, [] => v
  | .record cells, i :: rest => Val.fieldByIndex (cells.getD i .unsupported) rest
  | _, _ :: _ => .unsupported

/-- The reflection operations on `Val`, for a record type with the given
descriptors. -/
def valReflect (fields : List fieldInfo) : Reflect Val where
  Len := fun v => match v with
    | .items elems => elems.length
    | _ => 0
  Index := fun v i => match v with
    | .items elems => elems.getD i .unsupported
    | _ => .unsupported
  Elem := fun v => match v with
    | .ptr target => target
    | _ => .unsupported
  FieldByIndex := Val.fieldByIndex
  getStructInfo := fun _ => fields
  getFieldAsString := fun v => match v with
    | .str s => .ok s
    | _ => .error ⟨"unsupported type"⟩

/-- A writer that accepts every row and reports no error. -/
def okWriter : SafeCSVWriter Unit where
  Write := fun _ _ => ((), none)
  Flush := fun _ => ()
  Error := fun _ => none

/-- A writer whose state counts the calls of `Write`; the call number `k`
(counting from one) fails with `err`, and `Error` reports `flushErr`. -/
def countingWriter (k : Nat) (err : GoError) (flushErr : Option GoError) : SafeCSVWriter Nat where
  Write := fun n _ => (n + 1, if n + 1 = k then some err else none)
  Flush := fun n => n
  Error := fun _ => flushErr

/-- The map range that visits the entries in insertion order. -/
def inOrder : MapRange := fun _ m => m

/-- The map range that visits the entries in reverse insertion order. -/
def reversed : MapRange := fun _ m => m.reverse

/-! ## Names for the parts of a call, and specification-level functions -/

/-- The container value `inValue` of `writeTo`. -/
def inValueOf {V : Type} (R : Reflect V) (x : Iface V) : V :=
  (getConcreteReflectValueAndType R x).1

/-- The container type `inType` of `writeTo`. -/
def inTypeOf {V : Type} (R : Reflect V) (x : Iface V) : GoType :=
  (getConcreteReflectValueAndType R x).2

/-- The flag `inInnerWasPointer` of `writeTo`. -/
def innerWasPointerOf {V : Type} (R : Reflect V) (x : Iface V) : Bool :=
  (getConcreteContainerInnerType (inTypeOf R x)).1

/-- The type `inInnerType` of `writeTo`. -/
def innerTypeOf {V : Type} (R : Reflect V) (x : Iface V) : GoType :=
  (getConcreteContainerInnerType (inTypeOf R x)).2

/-- The descriptor list `inInnerStructInfo.Fields` of `writeTo`, as first built. -/
def fieldsOf {V : Type} (R : Reflect V) (x : Iface V) : List fieldInfo :=
  R.getStructInfo (innerTypeOf R x)

/-- The row count `inLen` of `writeTo`. -/
def inLenOf {V : Type} (R : Reflect V) (x : Iface V) : Nat :=
  R.Len (inValueOf R x)

/-- The projection `writeTo` makes of record `i` through descriptor `d`. -/
def projectAt {V : Type} (R : Reflect V) (x : Iface V) (i : Nat) (d : fieldInfo) :
    Except GoError String :=
  getInnerField R (R.Index (inValueOf R x) i) (innerWasPointerOf R x) d.IndexChain

/-- Both shape checks of `writeTo` pass. -/
def ShapeOk {V : Type} (R : Reflect V) (x : Iface V) : Prop :=
  ensureInType (inTypeOf R x) = none ∧ ensureInInnerType (innerTypeOf R x) = none

instance {V : Type} (R : Reflect V) (x : Iface V) : Decidable (ShapeOk R x) := by
  unfold ShapeOk; infer_instance

/-- The labels and descriptors `writeTo` has after its elision block, or the
projection error of the pre-pass. -/
def remainingOf {V : Type} (R : Reflect V) (ω : MapRange) (x : Iface V) :
    Except GoError (List String × List fieldInfo) :=
  omitStage R ω (inValueOf R x) (innerWasPointerOf R x) (fieldsOf R x)
    (headerLoop (fieldsOf R x) 0 (List.replicate (fieldsOf R x).length "") []).1
    (headerLoop (fieldsOf R x) 0 (List.replicate (fieldsOf R x).length "") []).2

/-- The projection of a record through a descriptor is the empty string. -/
def isEmptyCell {V : Type} (R : Reflect V) (rec : V) (wasPointer : Bool) (d : fieldInfo) : Bool :=
  match getInnerField R rec wasPointer d.IndexChain with
  | .ok v => decide (v = "")
  | .error _ => false

/-- The projections of a record through a list of descriptors, in order, up to
the first error. -/
def projectAll {V : Type} (R : Reflect V) (rec : V) (wasPointer : Bool) :
    List fieldInfo → Except GoError (List String)
  | [] => .ok []
  | d :: rest =>
    match getInnerField R rec wasPointer d.IndexChain with
    | .error err => .error err
    | .ok v =>
      match projectAll R rec wasPointer rest with
      | .error err => .error err
      | .ok vs => .ok (v :: vs)

/-- How often the pre-pass increments the counter of `key` for one record. -/
def hitsRow {V : Type} (R : Reflect V) (rec : V) (wasPointer : Bool) (fields : List fieldInfo)
    (key : String) : Nat :=
  fields.countP (fun d => decide (d.getFirstKey = key) && isEmptyCell R rec wasPointer d)

/-- How often the pre-pass increments the counter of `key` over the given rows. -/
def hitsRows {V : Type} (R : Reflect V) (inValue : V) (wasPointer : Bool)
    (fields : List fieldInfo) (key : String) : List Nat → Nat
  | [] => 0
  | i :: rest =>
    hitsRow R (R.Index inValue i) wasPointer fields key
      + hitsRows R inValue wasPointer fields key rest

/-- The counter map built by the first loop of `writeTo`. -/
def initCounters : List fieldInfo → headersToOmit → headersToOmit
  | [], toOmit => toOmit
  | d :: rest, toOmit =>
    initCounters rest (toOmit.set d.getFirstKey (if d.omitEmpty then 0 else -1))

/-- The list without its first descriptor whose key is `key`. -/
def eraseFirst (key : String) : List fieldInfo → List fieldInfo
  | [] => []
  | d :: rest => if key = d.getFirstKey then rest else d :: eraseFirst key rest

/-- The descriptors that the elision loop leaves, computed on the descriptor list
alone. -/
def elideFields (inLen : Nat) : List (String × Int) → List fieldInfo → List fieldInfo
  | [], fs => fs
  | (key, emptyColumns) :: rest, fs =>
    elideFields inLen rest (if emptyColumns = (inLen : Int) then eraseFirst key fs else fs)

/-- The rule of the specification for keeping a column, given the cell of every
record: a column is dropped when it is omit-eligible and empty in all `n` rows. -/
def keepColumn (n : Nat) (cell : Nat → fieldInfo → String) (d : fieldInfo) : Bool :=
  !(d.omitEmpty && (List.range n).all (fun i => decide (cell i d = "")))

/-- Every projection `writeTo` can make on the input succeeds. -/
def ProjectionsSucceed {V : Type} (R : Reflect V) (x : Iface V) : Prop :=
  ∀ i < inLenOf R x, ∀ d ∈ fieldsOf R x, ∃ v, projectAt R x i d = .ok v

/-- A writer whose `Write` never returns an error. -/
def WritesSucceed {σ : Type} (w : SafeCSVWriter σ) : Prop :=
  ∀ (st : σ) (row : List String), (w.Write st row).2 = none

/-- A writer that never fails: no `Write` returns an error and `Error` reports none. -/
def NeverFails {σ : Type} (w : SafeCSVWriter σ) : Prop :=
  WritesSucceed w ∧ ∀ st : σ, w.Error st = none

/-- The record shape in the words of the specification: a struct, directly or
through exactly one level of pointer indirection. -/
def isRecordShape : GoType → Bool
  | .struct _ => true
  | .ptr (.struct _) => true
  | _ => false

/-! ## Example inputs -/

/-- Two descriptors: `Name`, and `Tag` marked `omitEmpty`. -/
def nameTagFields : List fieldInfo := [⟨"Name", false, [0]⟩, ⟨"Tag", true, [1]⟩]

/-- A slice of two records whose `Tag` is empty in every row. -/
def tagsEmpty : Iface Val :=
  ⟨.slice (.struct "Rec"), .items [.record [.str "A", .str ""], .record [.str "B", .str ""]]⟩

/-- A slice of two records, one of which has a `Tag`. -/
def oneTag : Iface Val :=
  ⟨.slice (.struct "Rec"), .items [.record [.str "A", .str ""], .record [.str "B", .str "x"]]⟩

/-- The cells of a container, the empty string where a projection fails. -/
def cellOf {V : Type} (R : Reflect V) (x : Iface V) (i : Nat) (d : fieldInfo) : String :=
  match projectAt R x i d with
  | .ok v => v
  | .error _ => ""

/-- The cells of a channel item, projected with the pointer flag of the first item;
the empty string where a projection fails. -/
def chanCellOf {V : Type} (R : Reflect V) (firstValue : Iface V) (v : Iface V) (d : fieldInfo) :
    String :=
  match getInnerField R (getConcreteReflectValueAndType R v).1
      (decide ((inTypeOf R firstValue).Kind = Kind.Ptr)) d.IndexChain with
  | .ok s => s
  | .error _ => ""

/-- The first item of the example channel: a record. -/
def firstItem : Iface Val := ⟨.struct "Rec", .record [.str "A", .str ""]⟩

/-- The later items of the example channel: a pointer to a record, then a record. -/
def laterItems : List (Iface Val) :=
  [⟨.ptr (.struct "Rec"), .ptr (.record [.str "B", .str "x"])⟩,
    ⟨.struct "Rec", .record [.str "C", .str "y"]⟩]

/-- Two descriptors that are not `omitEmpty` and share the key `x`, and a third
that is `omitEmpty`. -/
def sharedKeyFields : List fieldInfo := [⟨"x", false, [0]⟩, ⟨"x", false, [1]⟩, ⟨"c", true, [2]⟩]

/-- One record whose two `x` fields are empty. -/
def sharedKeyInput : Iface Val :=
  ⟨.slice (.struct "Rec"), .items [.record [.str "", .str "", .str "v"]]⟩

/-- A descriptor that is not `omitEmpty` and one that is, sharing the key `x`. -/
def mixedKeyFields : List fieldInfo := [⟨"x", false, [0]⟩, ⟨"x", true, [1]⟩]

/-- One record whose first field is `a` and whose second is empty. -/
def mixedKeyInput : Iface Val :=
  ⟨.slice (.struct "Rec"), .items [.record [.str "a", .str ""]]⟩

/-- A bare record, which is not a container. -/
def bareRecord : Iface Val := ⟨.struct "Rec", .record [.str "A", .str ""]⟩

/-- A slice of strings: a container whose elements are not records. -/
def stringSlice : Iface Val := ⟨.slice .string, .items [.str "A"]⟩

/-- The list without, for each key in `ks`, the first descriptor that has this key:
walking the descriptors in order, a descriptor whose key is still pending is dropped
and its key is struck off the pending keys. -/
def dropEach : List String → List fieldInfo → List fieldInfo
  | _, [] => []
  | ks, d :: rest =>
    if d.getFirstKey ∈ ks then dropEach (ks.erase d.getFirstKey) rest
    else d :: dropEach ks rest

/-- The keys whose counter equals the row count, in the order the range visits them. -/
def pendingKeys (inLen : Nat) (π : List (String × Int)) : List String :=
  (π.filter (fun e => decide (e.2 = (inLen : Int)))).map Prod.fst

/-- The loop of `fillRow` with the bounds check Go makes on `csvHeadersLabels[j]`:
`none` is the run-time panic of an index out of range. -/
def fillRowChecked {V : Type} (R : Reflect V) (rec : V) (wasPointer : Bool) :
    List fieldInfo → Nat → List String → Option (Except GoError (List String))
  | [], _, labels => some (.ok labels)
  | fieldInfo :: rest, j, labels =>
    if j < labels.length then
      match getInnerField R rec wasPointer fieldInfo.IndexChain with
      | .error err => some (.error err)
      | .ok inInnerFieldValue =>
        fillRowChecked R rec wasPointer rest (j + 1) ((labels.set j "").set j inInnerFieldValue)
    else none

/-- The emission loop of `writeTo` with bounds checks, run to its end or to the first
projection error: `false` when some index is out of range. -/
def emitChecked {V : Type} (R : Reflect V) (inValue : V) (wasPointer : Bool)
    (fields : List fieldInfo) : List Nat → List String → Bool
  | [], _ => true
  | i :: rest, labels =>
    match fillRowChecked R (R.Index inValue i) wasPointer fields 0 labels with
    | none => false
    | some (.error _) => true
    | some (.ok row) => emitChecked R inValue wasPointer fields rest row

/-- The rows among the logged calls, in order. -/
def rowsOf (calls : List Call) : List (List String) := calls.filterMap Call.row?

/-- A slice of two records; the `Name` of the first is empty. -/
def nameEmpty : Iface Val :=
  ⟨.slice (.struct "Rec"), .items [.record [.str "", .str ""], .record [.str "B", .str ""]]⟩

/-- A slice of one record whose `Name` has no string form. -/
def nameUnsupported : Iface Val :=
  ⟨.slice (.struct "Rec"), .items [.record [.unsupported, .str ""]]⟩

/-- A slice without records. -/
def noRecords : Iface Val := ⟨.slice (.struct "Rec"), .items []⟩

/-- An `omitEmpty` descriptor followed by one that is not, sharing the key `x`. -/
def shadowedFields : List fieldInfo := [⟨"x", true, [0]⟩, ⟨"x", false, [1]⟩]

/-- One record whose first field is empty and whose second is `b`. -/
def shadowedInput : Iface Val :=
  ⟨.slice (.struct "Rec"), .items [.record [.str "", .str "b"]]⟩

/-- Later channel items of other types than the first: a pointer to a record, and a
record of another struct type with three fields. -/
def otherItems : List (Iface Val) :=
  [⟨.ptr (.struct "Rec"), .ptr (.record [.str "B", .str "x"])⟩,
    ⟨.struct "Other", .record [.str "R", .str "S", .str "T"]⟩]

/-- The items of `otherItems` with the same values, all typed as the first item's
struct: a record, and a record with three fields. -/
def sameValueItems : List (Iface Val) :=
  [⟨.struct "Rec", .record [.str "B", .str "x"]⟩,
    ⟨.struct "Rec", .record [.str "R", .str "S", .str "T"]⟩]

/-- The value `val` that `writeFromChan` takes from a channel item. -/
def concreteOf {V : Type} (R : Reflect V) (v : Iface V) : V :=
  (getConcreteReflectValueAndType R v).1

/-- The log entry of a row that was written without error. -/
def written (row : List String) : Call := Call.Write row none

/-- What a call asks of the writer, whatever the writer answers: the rows to
write, in order, and the error to return after them (`none`: flush, then return
the error state of the writer). -/
structure Plan where
  rows : List (List String)
  stop : Option GoError

/-- Writing rows in order up to the first `Write` that fails. -/
def drive {σ : Type} (w : SafeCSVWriter σ) : List (List String) → Sink σ → Sink σ × Option GoError
  | [], writer => (writer, none)
  | row :: rest, writer =>
    match (Sink.Write w writer row).2 with
    | some err => ((Sink.Write w writer row).1, some err)
    | none => drive w rest (Sink.Write w writer row).1

/-- Carrying out a plan on a writer. -/
def exec {σ : Type} (w : SafeCSVWriter σ) (p : Plan) (writer : Sink σ) : Sink σ × Option GoError :=
  match (drive w p.rows writer).2 with
  | some err => ((drive w p.rows writer).1, some err)
  | none =>
    match p.stop with
    | some err => ((drive w p.rows writer).1, some err)
    | none =>
      (Sink.Flush w (drive w p.rows writer).1,
        w.Error (Sink.Flush w (drive w p.rows writer).1).st)

/-- The plan of the emission loop of `writeTo`. -/
def planRows {V : Type} (R : Reflect V) (inValue : V) (wasPointer : Bool)
    (fields : List fieldInfo) : List Nat → List String → Plan
  | [], _ => ⟨[], none⟩
  | i :: rest, labels =>
    match fillRow R (R.Index inValue i) wasPointer fields 0 labels with
    | .error err => ⟨[], some err⟩
    | .ok row =>
      ⟨row :: (planRows R inValue wasPointer fields rest row).rows,
        (planRows R inValue wasPointer fields rest row).stop⟩

/-- The plan of `writeTo`. -/
def writeToPlan {V : Type} (R : Reflect V) (ω : MapRange) (x : Iface V) (omitHeaders : Bool) :
    Plan :=
  match ensureInType (inTypeOf R x) with
  | some err => ⟨[], some err⟩
  | none =>
    match ensureInInnerType (innerTypeOf R x) with
    | some err => ⟨[], some err⟩
    | none =>
      match remainingOf R ω x with
      | .error err => ⟨[], some err⟩
      | .ok cols =>
        let body := planRows R (inValueOf R x) (innerWasPointerOf R x) cols.2
          (List.range (inLenOf R x)) cols.1
        ⟨(if omitHeaders then [] else [cols.1]) ++ body.rows, body.stop⟩

/-- The plan of the receive loop of `writeFromChan`. -/
def planChan {V : Type} (R : Reflect V) (wasPointer : Bool) (fields : List fieldInfo) :
    List (Iface V) → List String → Plan
  | [], _ => ⟨[], none⟩
  | v :: rest, labels =>
    match fillRow R (getConcreteReflectValueAndType R v).1 wasPointer fields 0 labels with
    | .error err => ⟨[], some err⟩
    | .ok row =>
      ⟨row :: (planChan R wasPointer fields rest row).rows,
        (planChan R wasPointer fields rest row).stop⟩

/-- The plan of `writeFromChan`. -/
def writeFromChanPlan {V : Type} (R : Reflect V) (c : List (Iface V)) : Plan :=
  match c with
  | [] => ⟨[], some ⟨"channel is closed"⟩⟩
  | firstValue :: rest =>
    match ensureStructOrPtr (inTypeOf R firstValue) with
    | some err => ⟨[], some err⟩
    | none =>
      let fields := R.getStructInfo (inTypeOf R firstValue)
      let labels := labelLoop fields 0 (List.replicate fields.length "")
      let body := planChan R (decide ((inTypeOf R firstValue).Kind = Kind.Ptr)) fields
        (firstValue :: rest) labels
      ⟨labels :: body.rows, body.stop⟩


/-! ## The label and row buffers -/

theorem set_at_length (pre suf : List String) (a v : String) :
    (pre ++ a :: suf).set pre.length v = pre ++ v :: suf := by
  induction pre with
  | nil => rfl
  | cons b pre ih => simp [List.set, ih]

theorem labelLoop_append (fs : List fieldInfo) :
    ∀ (pre suf : List String), suf.length = fs.length →
      labelLoop fs pre.length (pre ++ suf) = pre ++ fs.map fieldInfo.getFirstKey := by
  induction fs with
  | nil =>
    intro pre suf h
    have hs : suf = [] := List.length_eq_zero.mp (by simpa using h)
    simp [labelLoop, hs]
  | cons f fs ih =>
    intro pre suf h
    cases suf with
    | nil => simp at h
    | cons a suf =>
      have hlen : suf.length = fs.length := by simpa using h
      have step := ih (pre ++ [f.getFirstKey]) suf hlen
      simp only [List.length_append, List.length_singleton, List.append_assoc,
        List.singleton_append] at step
      simp only [labelLoop, set_at_length, List.map_cons]
      exact step

theorem labelLoop_fresh (fs : List fieldInfo) :
    labelLoop fs 0 (List.replicate fs.length "") = fs.map fieldInfo.getFirstKey := by
  have h := labelLoop_append fs [] (List.replicate fs.length "") (by simp)
  simpa using h

theorem headerLoop_eq (fs : List fieldInfo) :
    ∀ (i : Nat) (labels : List String) (m : headersToOmit),
      headerLoop fs i labels m = (labelLoop fs i labels, initCounters fs m) := by
  induction fs with
  | nil => intro i labels m; rfl
  | cons f fs ih =>
    intro i labels m
    simp only [headerLoop, labelLoop, initCounters, ih]
    cases f.omitEmpty <;> simp

theorem fillRow_append {V : Type} (R : Reflect V) (rec : V) (wp : Bool) (fs : List fieldInfo) :
    ∀ (pre suf : List String), suf.length = fs.length →
      fillRow R rec wp fs pre.length (pre ++ suf) =
        match projectAll R rec wp fs with
        | .ok vs => .ok (pre ++ vs)
        | .error err => .error err := by
  induction fs with
  | nil =>
    intro pre suf h
    have hs : suf = [] := List.length_eq_zero.mp (by simpa using h)
    simp [fillRow, projectAll, hs]
  | cons f fs ih =>
    intro pre suf h
    cases suf with
    | nil => simp at h
    | cons a suf =>
      have hlen : suf.length = fs.length := by simpa using h
      simp only [fillRow, projectAll]
      cases hg : getInnerField R rec wp f.IndexChain with
      | error err => rfl
      | ok v =>
        have step := ih (pre ++ [v]) suf hlen
        simp only [List.length_append, List.length_singleton, List.append_assoc,
          List.singleton_append] at step
        simp only [set_at_length]
        rw [step]
        cases projectAll R rec wp fs <;> rfl

theorem fillRow_eq_projectAll {V : Type} (R : Reflect V) (rec : V) (wp : Bool)
    (fs : List fieldInfo) (labels : List String) (h : labels.length = fs.length) :
    fillRow R rec wp fs 0 labels = projectAll R rec wp fs := by
  have step := fillRow_append R rec wp fs [] labels h
  simp only [List.length_nil, List.nil_append] at step
  rw [step]
  cases projectAll R rec wp fs <;> rfl

theorem projectAll_length {V : Type} (R : Reflect V) (rec : V) (wp : Bool) :
    ∀ (fs : List fieldInfo) (vs : List String),
      projectAll R rec wp fs = .ok vs → vs.length = fs.length := by
  intro fs
  induction fs with
  | nil => intro vs h; simp [projectAll] at h; simp [← h]
  | cons f fs ih =>
    intro vs h
    simp only [projectAll] at h
    cases hg : getInnerField R rec wp f.IndexChain with
    | error err => simp [hg] at h
    | ok v =>
      cases hp : projectAll R rec wp fs with
      | error err => simp [hg, hp] at h
      | ok ws =>
        simp [hg, hp] at h
        simp [← h, ih ws hp]

theorem projectAll_of_ok {V : Type} (R : Reflect V) (rec : V) (wp : Bool) (cell : fieldInfo → String) :
    ∀ (fs : List fieldInfo),
      (∀ d ∈ fs, getInnerField R rec wp d.IndexChain = .ok (cell d)) →
      projectAll R rec wp fs = .ok (fs.map cell) := by
  intro fs
  induction fs with
  | nil => intro _; rfl
  | cons f fs ih =>
    intro h
    simp only [projectAll, h f (List.mem_cons_self _ _),
      ih (fun d hd => h d (List.mem_cons_of_mem _ hd)), List.map_cons]


/-! ## Every call carries out its plan -/

theorem exec_stopped {σ : Type} (w : SafeCSVWriter σ) (err : GoError) (writer : Sink σ) :
    exec w ⟨[], some err⟩ writer = (writer, some err) := rfl

theorem writeRows_eq_drive {V σ : Type} (R : Reflect V) (w : SafeCSVWriter σ) (inValue : V)
    (wp : Bool) (fs : List fieldInfo) :
    ∀ (idxs : List Nat) (labels : List String) (writer : Sink σ),
      writeRows R w inValue wp fs idxs labels writer =
        match (drive w (planRows R inValue wp fs idxs labels).rows writer).2 with
        | some err => ((drive w (planRows R inValue wp fs idxs labels).rows writer).1, some err)
        | none => ((drive w (planRows R inValue wp fs idxs labels).rows writer).1,
            (planRows R inValue wp fs idxs labels).stop) := by
  intro idxs
  induction idxs with
  | nil => intro labels writer; rfl
  | cons i rest ih =>
    intro labels writer
    simp only [writeRows, planRows]
    cases hf : fillRow R (R.Index inValue i) wp fs 0 labels with
    | error err => rfl
    | ok row =>
      simp only [drive]
      cases hw : (Sink.Write w writer row).2 with
      | some err => rfl
      | none => simp only [ih]

theorem chanLoop_eq_drive {V σ : Type} (R : Reflect V) (w : SafeCSVWriter σ) (inType : GoType)
    (wp : Bool) (fs : List fieldInfo) (hT : ensureStructOrPtr inType = none) :
    ∀ (c : List (Iface V)) (labels : List String) (writer : Sink σ),
      chanLoop R w inType wp fs c labels writer =
        match (drive w (planChan R wp fs c labels).rows writer).2 with
        | some err => ((drive w (planChan R wp fs c labels).rows writer).1, some err)
        | none => ((drive w (planChan R wp fs c labels).rows writer).1,
            (planChan R wp fs c labels).stop) := by
  intro c
  induction c with
  | nil => intro labels writer; rfl
  | cons v rest ih =>
    intro labels writer
    simp only [chanLoop, planChan, hT, chanWrite]
    cases hf : fillRow R (getConcreteReflectValueAndType R v).1 wp fs 0 labels with
    | error err => rfl
    | ok row =>
      simp only [drive]
      cases hw : (Sink.Write w writer row).2 with
      | some err => rfl
      | none => simp only [ih]

theorem finish_eq_exec {σ : Type} (w : SafeCSVWriter σ) (p : Plan) (writer : Sink σ) :
    (match (match (drive w p.rows writer).2 with
        | some err => ((drive w p.rows writer).1, some err)
        | none => ((drive w p.rows writer).1, p.stop)) with
      | (writer1, some err) => (writer1, some err)
      | (writer1, none) => (Sink.Flush w writer1, w.Error (Sink.Flush w writer1).st)) =
      exec w p writer := by
  unfold exec
  generalize drive w p.rows writer = d
  rcases d with ⟨s1, _ | e⟩
  · cases p.stop <;> rfl
  · rfl

theorem exec_cons {σ : Type} (w : SafeCSVWriter σ) (row : List String) (rows : List (List String))
    (stop : Option GoError) (writer : Sink σ) :
    exec w ⟨row :: rows, stop⟩ writer =
      match (Sink.Write w writer row).2 with
      | some err => ((Sink.Write w writer row).1, some err)
      | none => exec w ⟨rows, stop⟩ (Sink.Write w writer row).1 := by
  simp only [exec, drive]
  cases (Sink.Write w writer row).2 <;> rfl

theorem writeToEmit_eq_exec {V σ : Type} (R : Reflect V) (w : SafeCSVWriter σ) (writer : Sink σ)
    (inValue : V) (wp : Bool) (omitHeaders : Bool) (cols : List String × List fieldInfo) :
    writeToEmit R w writer inValue wp omitHeaders cols =
      exec w ⟨(if omitHeaders then [] else [cols.1]) ++
          (planRows R inValue wp cols.2 (List.range (R.Len inValue)) cols.1).rows,
        (planRows R inValue wp cols.2 (List.range (R.Len inValue)) cols.1).stop⟩ writer := by
  cases omitHeaders with
  | true =>
    simp only [writeToEmit, Bool.not_true, Bool.false_eq_true, if_false, if_true, List.nil_append]
    rw [writeRows_eq_drive]
    exact finish_eq_exec w (planRows R inValue wp cols.2 (List.range (R.Len inValue)) cols.1) writer
  | false =>
    simp only [writeToEmit, Bool.not_false, if_true, Bool.false_eq_true, if_false,
      List.singleton_append, exec_cons]
    cases (Sink.Write w writer cols.1).2 with
    | some err => rfl
    | none =>
      simp only [writeRows_eq_drive]
      exact finish_eq_exec w (planRows R inValue wp cols.2 (List.range (R.Len inValue)) cols.1) _

theorem writeTo_eq_exec {V σ : Type} (R : Reflect V) (w : SafeCSVWriter σ) (ω : MapRange)
    (writer : Sink σ) (x : Iface V) (omitHeaders : Bool) :
    writeTo R w ω writer x omitHeaders = exec w (writeToPlan R ω x omitHeaders) writer := by
  unfold writeTo writeToPlan
  simp only [inTypeOf, innerTypeOf, remainingOf, fieldsOf, inValueOf, innerWasPointerOf, inLenOf]
  cases ensureInType (getConcreteReflectValueAndType R x).2 with
  | some err => rfl
  | none =>
    cases ensureInInnerType
        (getConcreteContainerInnerType (getConcreteReflectValueAndType R x).2).2 with
    | some err => rfl
    | none =>
      simp only []
      generalize omitStage R ω _ _ _ _ _ = st
      cases st with
      | error err => rfl
      | ok cols => exact writeToEmit_eq_exec R w writer _ _ omitHeaders cols

theorem writeFromChan_eq_exec {V σ : Type} (R : Reflect V) (w : SafeCSVWriter σ)
    (writer : Sink σ) (c : List (Iface V)) :
    writeFromChan R w writer c = exec w (writeFromChanPlan R c) writer := by
  cases c with
  | nil => rfl
  | cons firstValue rest =>
    unfold writeFromChan writeFromChanPlan
    simp only [inTypeOf]
    cases hT : ensureStructOrPtr (getConcreteReflectValueAndType R firstValue).2 with
    | some err => rfl
    | none =>
      simp only [exec_cons]
      cases (Sink.Write w writer (labelLoop (R.getStructInfo
          (getConcreteReflectValueAndType R firstValue).2) 0
          (List.replicate (R.getStructInfo
            (getConcreteReflectValueAndType R firstValue).2).length ""))).2 with
      | some err => rfl
      | none =>
        simp only [chanWrite, planChan]
        generalize fillRow R (getConcreteReflectValueAndType R firstValue).1 _ _ 0 _ = fr
        cases fr with
        | error err => rfl
        | ok row =>
          simp only [exec_cons]
          cases (Sink.Write w (Sink.Write w writer (labelLoop (R.getStructInfo
            (getConcreteReflectValueAndType R firstValue).2) 0
            (List.replicate (R.getStructInfo
              (getConcreteReflectValueAndType R firstValue).2).length ""))).1 row).2 with
          | some err => rfl
          | none =>
            simp only [chanLoop_eq_drive R w _ _ _ hT]
            exact finish_eq_exec w (planChan R _ _ rest row) _


/-! ## The log of a plan carried out -/

theorem drive_log {σ : Type} (w : SafeCSVWriter σ) :
    ∀ (rows : List (List String)) (writer : Sink σ),
      ((drive w rows writer).2 = none ∧
        (drive w rows writer).1.calls = writer.calls ++ rows.map written) ∨
      (∃ k row err st, k < rows.length ∧ rows[k]? = some row ∧
        (w.Write st row).2 = some err ∧
        (drive w rows writer).2 = some err ∧
        (drive w rows writer).1.calls =
          writer.calls ++ ((rows.take k).map written ++ [Call.Write row (some err)])) := by
  intro rows
  induction rows with
  | nil => intro writer; left; simp [drive]
  | cons r rs ih =>
    intro writer
    simp only [drive]
    cases hw : (Sink.Write w writer r).2 with
    | some err =>
      right
      refine ⟨0, r, err, writer.st, by simp, by simp, ?_, rfl, ?_⟩
      · simpa [Sink.Write] using hw
      · simp only [Sink.Write] at hw
        simp [Sink.Write, hw]
    | none =>
      have hcalls : (Sink.Write w writer r).1.calls = writer.calls ++ [written r] := by
        simp only [Sink.Write] at hw
        simp [Sink.Write, hw, written]
      rcases ih (Sink.Write w writer r).1 with ⟨h2, hc⟩ | ⟨k, row, err, st, hk, hrow, hst, h2, hc⟩
      · left
        refine ⟨h2, ?_⟩
        rw [hc, hcalls]
        simp
      · right
        refine ⟨k + 1, row, err, st, by simpa using hk, by simpa using hrow, hst, h2, ?_⟩
        rw [hc, hcalls]
        simp

theorem exec_log {σ : Type} (w : SafeCSVWriter σ) (p : Plan) (s0 : σ) :
    ((exec w p (Sink.fresh s0)).1.calls =
        p.rows.map written ++ (match p.stop with | none => [Call.Flush] | some _ => []) ∧
      (exec w p (Sink.fresh s0)).2 =
        (match p.stop with
          | none => w.Error (exec w p (Sink.fresh s0)).1.st
          | some err => some err)) ∨
    (∃ k row err st, k < p.rows.length ∧ p.rows[k]? = some row ∧
      (w.Write st row).2 = some err ∧
      (exec w p (Sink.fresh s0)).2 = some err ∧
      (exec w p (Sink.fresh s0)).1.calls =
        (p.rows.take k).map written ++ [Call.Write row (some err)]) := by
  rcases drive_log w p.rows (Sink.fresh s0) with ⟨h2, hc⟩ | ⟨k, row, err, st, hk, hrow, hst, h2, hc⟩
  · left
    have hc1 : (drive w p.rows ⟨s0, []⟩).1.calls = p.rows.map written := by
      simpa [Sink.fresh] using hc
    unfold exec
    rw [h2]
    cases hs : p.stop with
    | none => simp [Sink.Flush, hc1, Sink.fresh]
    | some err => simp [hc1, Sink.fresh]
  · right
    refine ⟨k, row, err, st, hk, hrow, hst, ?_, ?_⟩
    · unfold exec; rw [h2]
    · unfold exec; rw [h2]; simpa [Sink.fresh] using hc

theorem exec_log_of_writesSucceed {σ : Type} (w : SafeCSVWriter σ) (hw : WritesSucceed w)
    (p : Plan) (s0 : σ) :
    (exec w p (Sink.fresh s0)).1.calls =
        p.rows.map written ++ (match p.stop with | none => [Call.Flush] | some _ => []) ∧
      (exec w p (Sink.fresh s0)).2 =
        (match p.stop with
          | none => w.Error (exec w p (Sink.fresh s0)).1.st
          | some err => some err) := by
  rcases exec_log w p s0 with h | ⟨k, row, err, st, _, _, hst, _, _⟩
  · exact h
  · rw [hw st row] at hst
    cases hst


/-! ## Elision keeps labels and descriptors in lockstep -/

theorem firstMatch_succ (key : String) :
    ∀ (hs : List String) (i : Nat),
      firstMatch key hs (i + 1) = (firstMatch key hs i).map (· + 1) := by
  intro hs
  induction hs with
  | nil => intro i; rfl
  | cons h hs ih =>
    intro i
    simp only [firstMatch]
    by_cases hk : key = h
    · simp [hk]
    · simp only [hk, if_false]
      exact ih (i + 1)

theorem removeColumn_eq (key : String) :
    ∀ (fs : List fieldInfo),
      removeColumn key (fs.map fieldInfo.getFirstKey, fs) =
        ((eraseFirst key fs).map fieldInfo.getFirstKey, eraseFirst key fs) := by
  intro fs
  induction fs with
  | nil => rfl
  | cons f fs ih =>
    by_cases hk : key = f.getFirstKey
    · simp [removeColumn, firstMatch, eraseFirst, hk]
    · have h1 : firstMatch key (f.getFirstKey :: fs.map fieldInfo.getFirstKey) 0 =
          (firstMatch key (fs.map fieldInfo.getFirstKey) 0).map (· + 1) := by
        simp only [firstMatch, hk, if_false]
        exact firstMatch_succ key _ 0
      simp only [removeColumn, List.map_cons, h1, eraseFirst, hk, if_false]
      simp only [removeColumn] at ih
      cases hm : firstMatch key (fs.map fieldInfo.getFirstKey) 0 with
      | none =>
        rw [hm] at ih
        simp only [Option.map_none']
        have h2 : fs = eraseFirst key fs := congrArg Prod.snd ih
        rw [← h2]
      | some j =>
        rw [hm] at ih
        simp only [Option.map_some', List.eraseIdx_cons_succ]
        have h1 := congrArg Prod.fst ih
        have h2 := congrArg Prod.snd ih
        simp only at h1 h2
        rw [h1, h2]

theorem elide_eq (inLen : Nat) :
    ∀ (π : List (String × Int)) (fs : List fieldInfo),
      elide inLen π (fs.map fieldInfo.getFirstKey, fs) =
        ((elideFields inLen π fs).map fieldInfo.getFirstKey, elideFields inLen π fs) := by
  intro π
  induction π with
  | nil => intro fs; rfl
  | cons e π ih =>
    intro fs
    rcases e with ⟨key, c⟩
    simp only [elide, elideFields]
    by_cases hc : c = (inLen : Int)
    · simp only [hc, if_true, removeColumn_eq, ih]
    · simp only [hc, if_false, ih]

theorem eraseFirst_sublist (key : String) :
    ∀ (fs : List fieldInfo), (eraseFirst key fs).Sublist fs := by
  intro fs
  induction fs with
  | nil => exact List.Sublist.refl _
  | cons f fs ih =>
    simp only [eraseFirst]
    by_cases hk : key = f.getFirstKey
    · simp only [hk, if_true]; exact List.sublist_cons_self _ _
    · simp only [hk, if_false]; exact ih.cons₂ _

theorem elideFields_sublist (inLen : Nat) :
    ∀ (π : List (String × Int)) (fs : List fieldInfo), (elideFields inLen π fs).Sublist fs := by
  intro π
  induction π with
  | nil => intro fs; exact List.Sublist.refl _
  | cons e π ih =>
    intro fs
    rcases e with ⟨key, c⟩
    simp only [elideFields]
    by_cases hc : c = (inLen : Int)
    · simp only [hc, if_true]; exact (ih _).trans (eraseFirst_sublist key fs)
    · simp only [hc, if_false]; exact ih fs

/-- What the elision block yields: the pre-pass error, or a sublist of the
descriptors together with its keys. -/
theorem remainingOf_cases {V : Type} (R : Reflect V) (ω : MapRange) (x : Iface V) :
    (∃ err, remainingOf R ω x = .error err) ∨
    (∃ fs, remainingOf R ω x = .ok (fs.map fieldInfo.getFirstKey, fs) ∧
      fs.Sublist (fieldsOf R x)) := by
  unfold remainingOf omitStage
  simp only [headerLoop_eq, labelLoop_fresh]
  split
  · cases countRows R (inValueOf R x) (innerWasPointerOf R x) (fieldsOf R x)
        (List.range (R.Len (inValueOf R x))) (initCounters (fieldsOf R x) []) with
    | error err => left; exact ⟨err, rfl⟩
    | ok counted =>
      right
      refine ⟨elideFields (R.Len (inValueOf R x)) (ω 1 counted) (fieldsOf R x), ?_, ?_⟩
      · simp only [elide_eq]
      · exact elideFields_sublist _ _ _
  · right
    exact ⟨fieldsOf R x, rfl, List.Sublist.refl _⟩


/-! ## The plan of `writeTo` -/

theorem planRows_length {V : Type} (R : Reflect V) (inValue : V) (wp : Bool)
    (fs : List fieldInfo) :
    ∀ (idxs : List Nat) (labels : List String), labels.length = fs.length →
      ∀ row ∈ (planRows R inValue wp fs idxs labels).rows, row.length = fs.length := by
  intro idxs
  induction idxs with
  | nil => intro labels _ row hrow; simp [planRows] at hrow
  | cons i rest ih =>
    intro labels hl row hrow
    simp only [planRows] at hrow
    rw [fillRow_eq_projectAll R _ wp fs labels hl] at hrow
    cases hp : projectAll R (R.Index inValue i) wp fs with
    | error err => simp [hp] at hrow
    | ok vs =>
      have hvs := projectAll_length R _ wp fs vs hp
      simp only [hp, List.mem_cons] at hrow
      rcases hrow with h | h
      · rw [h]; exact hvs
      · exact ih vs hvs row h

theorem planRows_ok {V : Type} (R : Reflect V) (inValue : V) (wp : Bool)
    (fs : List fieldInfo) (cell : Nat → fieldInfo → String) :
    ∀ (idxs : List Nat) (labels : List String), labels.length = fs.length →
      (∀ i ∈ idxs, ∀ d ∈ fs, getInnerField R (R.Index inValue i) wp d.IndexChain = .ok (cell i d)) →
      planRows R inValue wp fs idxs labels = ⟨idxs.map (fun i => fs.map (cell i)), none⟩ := by
  intro idxs
  induction idxs with
  | nil => intro labels _ _; rfl
  | cons i rest ih =>
    intro labels hl h
    have hp := projectAll_of_ok R (R.Index inValue i) wp (cell i) fs
      (h i (List.mem_cons_self _ _))
    simp only [planRows]
    rw [fillRow_eq_projectAll R _ wp fs labels hl, hp]
    have hrest := ih (fs.map (cell i)) (by simp)
      (fun j hj d hd => h j (List.mem_cons_of_mem _ hj) d hd)
    simp only [hrest, List.map_cons]

theorem countRow_ok {V : Type} (R : Reflect V) (rec : V) (wp : Bool) :
    ∀ (fs : List fieldInfo) (m : headersToOmit),
      (∀ d ∈ fs, ∃ v, getInnerField R rec wp d.IndexChain = .ok v) →
      ∃ m1, countRow R rec wp fs m = .ok m1 := by
  intro fs
  induction fs with
  | nil => intro m _; exact ⟨m, rfl⟩
  | cons f fs ih =>
    intro m h
    obtain ⟨v, hv⟩ := h f (List.mem_cons_self _ _)
    simp only [countRow, hv]
    exact ih _ (fun d hd => h d (List.mem_cons_of_mem _ hd))

theorem countRows_ok {V : Type} (R : Reflect V) (inValue : V) (wp : Bool) (fs : List fieldInfo) :
    ∀ (idxs : List Nat) (m : headersToOmit),
      (∀ i ∈ idxs, ∀ d ∈ fs, ∃ v, getInnerField R (R.Index inValue i) wp d.IndexChain = .ok v) →
      ∃ m1, countRows R inValue wp fs idxs m = .ok m1 := by
  intro idxs
  induction idxs with
  | nil => intro m _; exact ⟨m, rfl⟩
  | cons i rest ih =>
    intro m h
    obtain ⟨m1, hm1⟩ := countRow_ok R (R.Index inValue i) wp fs m (h i (List.mem_cons_self _ _))
    simp only [countRows, hm1]
    exact ih m1 (fun j hj d hd => h j (List.mem_cons_of_mem _ hj) d hd)

theorem remainingOf_ok {V : Type} (R : Reflect V) (ω : MapRange) (x : Iface V)
    (hp : ProjectionsSucceed R x) :
    ∃ fs, remainingOf R ω x = .ok (fs.map fieldInfo.getFirstKey, fs) ∧
      fs.Sublist (fieldsOf R x) := by
  rcases remainingOf_cases R ω x with ⟨err, he⟩ | h
  · exfalso
    unfold remainingOf omitStage at he
    obtain ⟨m1, hm1⟩ := countRows_ok R (inValueOf R x) (innerWasPointerOf R x) (fieldsOf R x)
      (List.range (R.Len (inValueOf R x)))
      (headerLoop (fieldsOf R x) 0 (List.replicate (fieldsOf R x).length "") []).2
      (fun i hi d hd => hp i (List.mem_range.mp hi) d hd)
    rw [hm1] at he
    split at he <;> cases he
  · exact h

theorem writeToPlan_of_shape {V : Type} (R : Reflect V) (ω : MapRange) (x : Iface V)
    (omitHeaders : Bool) (hS : ShapeOk R x) (cols : List String × List fieldInfo)
    (hc : remainingOf R ω x = .ok cols) :
    writeToPlan R ω x omitHeaders =
      ⟨(if omitHeaders then [] else [cols.1]) ++
          (planRows R (inValueOf R x) (innerWasPointerOf R x) cols.2
            (List.range (inLenOf R x)) cols.1).rows,
        (planRows R (inValueOf R x) (innerWasPointerOf R x) cols.2
            (List.range (inLenOf R x)) cols.1).stop⟩ := by
  unfold writeToPlan
  rw [hS.1, hS.2, hc]

theorem writeToPlan_rows_length {V : Type} (R : Reflect V) (ω : MapRange) (x : Iface V)
    (omitHeaders : Bool) (cols : List String × List fieldInfo)
    (hc : remainingOf R ω x = .ok cols) :
    ∀ row ∈ (writeToPlan R ω x omitHeaders).rows, row.length = cols.2.length := by
  intro row hrow
  rcases remainingOf_cases R ω x with ⟨err, he⟩ | ⟨fs, hfs, _⟩
  · rw [he] at hc; cases hc
  · rw [hfs] at hc
    injection hc with hc
    subst hc
    unfold writeToPlan at hrow
    cases h1 : ensureInType (inTypeOf R x) with
    | some err => simp [h1] at hrow
    | none =>
      cases h2 : ensureInInnerType (innerTypeOf R x) with
      | some err => simp [h1, h2] at hrow
      | none =>
        simp only [h1, h2, hfs, List.mem_append] at hrow
        rcases hrow with h | h
        · cases omitHeaders <;> simp at h
          rw [h]; simp
        · exact planRows_length R _ _ fs _ _ (by simp) row h

theorem writeToPlan_rows_of_error {V : Type} (R : Reflect V) (ω : MapRange) (x : Iface V)
    (omitHeaders : Bool) (err : GoError) (hc : remainingOf R ω x = .error err) :
    (writeToPlan R ω x omitHeaders).rows = [] := by
  unfold writeToPlan
  cases ensureInType (inTypeOf R x) with
  | some e => rfl
  | none =>
    cases ensureInInnerType (innerTypeOf R x) with
    | some e => rfl
    | none => simp only [hc]

theorem writeToPlan_ok {V : Type} (R : Reflect V) (ω : MapRange) (x : Iface V)
    (omitHeaders : Bool) (hS : ShapeOk R x) (cell : Nat → fieldInfo → String)
    (hp : ∀ i < inLenOf R x, ∀ d ∈ fieldsOf R x, projectAt R x i d = .ok (cell i d)) :
    ∃ fs, remainingOf R ω x = .ok (fs.map fieldInfo.getFirstKey, fs) ∧
      fs.Sublist (fieldsOf R x) ∧
      writeToPlan R ω x omitHeaders =
        ⟨(if omitHeaders then [] else [fs.map fieldInfo.getFirstKey]) ++
          (List.range (inLenOf R x)).map (fun i => fs.map (cell i)), none⟩ := by
  obtain ⟨fs, hfs, hsub⟩ := remainingOf_ok R ω x (fun i hi d hd => ⟨cell i d, hp i hi d hd⟩)
  refine ⟨fs, hfs, hsub, ?_⟩
  rw [writeToPlan_of_shape R ω x omitHeaders hS _ hfs]
  have hrows := planRows_ok R (inValueOf R x) (innerWasPointerOf R x) fs cell
    (List.range (inLenOf R x)) (fs.map fieldInfo.getFirstKey) (by simp)
    (fun i hi d hd => hp i (List.mem_range.mp hi) d (hsub.subset hd))
  simp only [hrows]


/-! ## The counter map -/

theorem get_set (m : headersToOmit) (k : String) (v : Int) (k1 : String) :
    (m.set k v).get k1 = if k = k1 then v else m.get k1 := by
  induction m with
  | nil => simp [headersToOmit.set, headersToOmit.get]
  | cons e m ih =>
    rcases e with ⟨k0, v0⟩
    by_cases h0 : k0 = k
    · subst h0
      simp only [headersToOmit.set, if_true, headersToOmit.get]
      by_cases h1 : k0 = k1 <;> simp [h1]
    · simp only [headersToOmit.set, h0, if_false, headersToOmit.get, ih]
      by_cases h1 : k0 = k1
      · have h2 : ¬ k = k1 := fun h => h0 (h1.trans h.symm)
        simp [h1, h2]
      · simp [h1]

theorem keys_set_of_mem (m : headersToOmit) (k : String) (v : Int)
    (h : k ∈ m.map Prod.fst) : (m.set k v).map Prod.fst = m.map Prod.fst := by
  induction m with
  | nil => simp at h
  | cons e m ih =>
    rcases e with ⟨k0, v0⟩
    by_cases h0 : k0 = k
    · simp [headersToOmit.set, h0]
    · have hm : k ∈ m.map Prod.fst := by
        simp only [List.map_cons, List.mem_cons] at h
        rcases h with h | h
        · exact absurd h.symm h0
        · exact h
      simp [headersToOmit.set, h0, ih hm]

theorem keys_set_of_not_mem (m : headersToOmit) (k : String) (v : Int)
    (h : k ∉ m.map Prod.fst) : (m.set k v).map Prod.fst = m.map Prod.fst ++ [k] := by
  induction m with
  | nil => simp [headersToOmit.set]
  | cons e m ih =>
    rcases e with ⟨k0, v0⟩
    simp only [List.map_cons, List.mem_cons, not_or] at h
    have h0 : ¬ k0 = k := fun h1 => h.1 h1.symm
    simp [headersToOmit.set, h0, ih h.2]

theorem mem_keys_set (m : headersToOmit) (k : String) (v : Int) (k1 : String) :
    k1 ∈ (m.set k v).map Prod.fst ↔ k1 = k ∨ k1 ∈ m.map Prod.fst := by
  by_cases h : k ∈ m.map Prod.fst
  · rw [keys_set_of_mem m k v h]
    constructor
    · exact Or.inr
    · rintro (h1 | h1)
      · rw [h1]; exact h
      · exact h1
  · rw [keys_set_of_not_mem m k v h]
    simp only [List.mem_append, List.mem_singleton]
    tauto

theorem nodup_keys_set (m : headersToOmit) (k : String) (v : Int)
    (h : (m.map Prod.fst).Nodup) : ((m.set k v).map Prod.fst).Nodup := by
  by_cases hk : k ∈ m.map Prod.fst
  · rw [keys_set_of_mem m k v hk]; exact h
  · rw [keys_set_of_not_mem m k v hk]
    rw [List.nodup_append]
    refine ⟨h, List.nodup_singleton _, ?_⟩
    intro a ha hb
    simp only [List.mem_singleton] at hb
    exact hk (hb ▸ ha)

theorem mem_iff_get (m : headersToOmit) (h : (m.map Prod.fst).Nodup) (k : String) (c : Int) :
    (k, c) ∈ m ↔ k ∈ m.map Prod.fst ∧ m.get k = c := by
  induction m with
  | nil => simp
  | cons e m ih =>
    rcases e with ⟨k0, v0⟩
    simp only [List.map_cons, List.nodup_cons] at h
    by_cases h0 : k0 = k
    · subst h0
      simp only [List.mem_cons, Prod.mk.injEq, true_and, List.map_cons, headersToOmit.get,
        if_true, true_or]
      constructor
      · rintro (h1 | h1)
        · exact h1.symm
        · exact absurd (List.mem_map_of_mem Prod.fst h1) h.1
      · intro h1; exact Or.inl h1.symm
    · have h0s : ¬ k = k0 := fun h1 => h0 h1.symm
      simp only [List.mem_cons, Prod.mk.injEq, h0s, false_and, false_or, List.map_cons,
        headersToOmit.get, h0, if_false]
      exact ih h.2

theorem mem_keys_initCounters :
    ∀ (fs : List fieldInfo) (m : headersToOmit) (k : String),
      k ∈ (initCounters fs m).map Prod.fst ↔
        k ∈ m.map Prod.fst ∨ k ∈ fs.map fieldInfo.getFirstKey := by
  intro fs
  induction fs with
  | nil => intro m k; simp [initCounters]
  | cons f fs ih =>
    intro m k
    simp only [initCounters, ih, mem_keys_set, List.map_cons, List.mem_cons]
    tauto

theorem nodup_keys_initCounters :
    ∀ (fs : List fieldInfo) (m : headersToOmit), (m.map Prod.fst).Nodup →
      ((initCounters fs m).map Prod.fst).Nodup := by
  intro fs
  induction fs with
  | nil => intro m h; exact h
  | cons f fs ih => intro m h; exact ih _ (nodup_keys_set m _ _ h)

theorem get_initCounters_of_not_mem :
    ∀ (fs : List fieldInfo) (m : headersToOmit) (k : String),
      k ∉ fs.map fieldInfo.getFirstKey → (initCounters fs m).get k = m.get k := by
  intro fs
  induction fs with
  | nil => intro m k _; rfl
  | cons f fs ih =>
    intro m k h
    simp only [List.map_cons, List.mem_cons, not_or] at h
    have h0 : ¬ f.getFirstKey = k := fun h1 => h.1 h1.symm
    simp only [initCounters, ih _ k h.2, get_set, h0, if_false]

/-- With pairwise distinct keys, the first loop gives every descriptor its own
counter: `0` when it is `omitEmpty`, the sentinel `-1` when it is not. -/
theorem get_initCounters :
    ∀ (fs : List fieldInfo) (m : headersToOmit), (fs.map fieldInfo.getFirstKey).Nodup →
      ∀ d ∈ fs, (initCounters fs m).get d.getFirstKey = if d.omitEmpty then 0 else -1 := by
  intro fs
  induction fs with
  | nil => intro m _ d hd; simp at hd
  | cons f fs ih =>
    intro m h d hd
    simp only [List.map_cons, List.nodup_cons] at h
    simp only [initCounters]
    rcases List.mem_cons.mp hd with h1 | h1
    · subst h1
      rw [get_initCounters_of_not_mem fs _ _ h.1, get_set]
      simp
    · exact ih _ h.2 d h1


/-! ## The pre-pass -/

theorem countRow_get {V : Type} (R : Reflect V) (rec : V) (wp : Bool) :
    ∀ (fs : List fieldInfo) (m m1 : headersToOmit),
      countRow R rec wp fs m = .ok m1 →
      ∀ k, m1.get k = m.get k + (hitsRow R rec wp fs k : Int) := by
  intro fs
  induction fs with
  | nil =>
    intro m m1 h k
    simp only [countRow, Except.ok.injEq] at h
    simp [← h, hitsRow]
  | cons f fs ih =>
    intro m m1 h k
    simp only [countRow] at h
    cases hg : getInnerField R rec wp f.IndexChain with
    | error err => simp [hg] at h
    | ok v =>
      simp only [hg] at h
      have step := ih _ m1 h k
      rw [step]
      have hcell : isEmptyCell R rec wp f = decide (v = "") := by simp [isEmptyCell, hg]
      simp only [hitsRow, List.countP_cons, hcell] at *
      by_cases hv : v = ""
      · by_cases hk : f.getFirstKey = k
        · simp [hv, hk, get_set]; ring
        · simp [hv, hk, get_set]
      · simp [hv]

theorem countRow_keys {V : Type} (R : Reflect V) (rec : V) (wp : Bool) :
    ∀ (fs : List fieldInfo) (m m1 : headersToOmit),
      countRow R rec wp fs m = .ok m1 →
      (∀ d ∈ fs, d.getFirstKey ∈ m.map Prod.fst) →
      m1.map Prod.fst = m.map Prod.fst := by
  intro fs
  induction fs with
  | nil =>
    intro m m1 h _
    simp only [countRow, Except.ok.injEq] at h
    rw [h]
  | cons f fs ih =>
    intro m m1 h hk
    simp only [countRow] at h
    cases hg : getInnerField R rec wp f.IndexChain with
    | error err => simp [hg] at h
    | ok v =>
      simp only [hg] at h
      have hf := hk f (List.mem_cons_self _ _)
      by_cases hv : v = ""
      · simp only [hv, if_true] at h
        have hkeys := keys_set_of_mem m f.getFirstKey (m.get f.getFirstKey + 1) hf
        rw [ih _ m1 h (fun d hd => by rw [hkeys]; exact hk d (List.mem_cons_of_mem _ hd)), hkeys]
      · simp only [hv, if_false] at h
        exact ih _ m1 h (fun d hd => hk d (List.mem_cons_of_mem _ hd))

theorem countRows_get {V : Type} (R : Reflect V) (inValue : V) (wp : Bool) (fs : List fieldInfo) :
    ∀ (idxs : List Nat) (m m1 : headersToOmit),
      countRows R inValue wp fs idxs m = .ok m1 →
      ∀ k, m1.get k = m.get k + (hitsRows R inValue wp fs k idxs : Int) := by
  intro idxs
  induction idxs with
  | nil =>
    intro m m1 h k
    simp only [countRows, Except.ok.injEq] at h
    simp [← h, hitsRows]
  | cons i rest ih =>
    intro m m1 h k
    simp only [countRows] at h
    cases hc : countRow R (R.Index inValue i) wp fs m with
    | error err => simp [hc] at h
    | ok m2 =>
      simp only [hc] at h
      rw [ih m2 m1 h k, countRow_get R _ wp fs m m2 hc k]
      simp only [hitsRows, Nat.cast_add]
      ring

theorem countRows_keys {V : Type} (R : Reflect V) (inValue : V) (wp : Bool) (fs : List fieldInfo) :
    ∀ (idxs : List Nat) (m m1 : headersToOmit),
      countRows R inValue wp fs idxs m = .ok m1 →
      (∀ d ∈ fs, d.getFirstKey ∈ m.map Prod.fst) →
      m1.map Prod.fst = m.map Prod.fst := by
  intro idxs
  induction idxs with
  | nil =>
    intro m m1 h _
    simp only [countRows, Except.ok.injEq] at h
    rw [h]
  | cons i rest ih =>
    intro m m1 h hk
    simp only [countRows] at h
    cases hc : countRow R (R.Index inValue i) wp fs m with
    | error err => simp [hc] at h
    | ok m2 =>
      simp only [hc] at h
      have h2 := countRow_keys R _ wp fs m m2 hc hk
      rw [ih m2 m1 h (fun d hd => by rw [h2]; exact hk d hd), h2]

theorem hitsRow_of_not_mem {V : Type} (R : Reflect V) (rec : V) (wp : Bool) :
    ∀ (fs : List fieldInfo) (k : String), k ∉ fs.map fieldInfo.getFirstKey →
      hitsRow R rec wp fs k = 0 := by
  intro fs k h
  simp only [hitsRow, List.countP_eq_zero]
  intro d hd
  have : d.getFirstKey ≠ k := fun h1 => h (h1 ▸ List.mem_map_of_mem _ hd)
  simp [this]

/-- With pairwise distinct keys, one record adds one to the counter of a
descriptor exactly when its projection through that descriptor is empty. -/
theorem hitsRow_of_nodup {V : Type} (R : Reflect V) (rec : V) (wp : Bool) :
    ∀ (fs : List fieldInfo), (fs.map fieldInfo.getFirstKey).Nodup →
      ∀ d ∈ fs, hitsRow R rec wp fs d.getFirstKey = if isEmptyCell R rec wp d then 1 else 0 := by
  intro fs
  induction fs with
  | nil => intro _ d hd; simp at hd
  | cons f fs ih =>
    intro h d hd
    simp only [List.map_cons, List.nodup_cons] at h
    have hsplit : hitsRow R rec wp (f :: fs) d.getFirstKey =
        hitsRow R rec wp fs d.getFirstKey +
          (if (decide (f.getFirstKey = d.getFirstKey) && isEmptyCell R rec wp f) = true
            then 1 else 0) := by
      simp only [hitsRow, List.countP_cons]
    rw [hsplit]
    rcases List.mem_cons.mp hd with h1 | h1
    · subst h1
      rw [hitsRow_of_not_mem R rec wp fs _ h.1]
      simp
    · have hne : f.getFirstKey ≠ d.getFirstKey :=
        fun h2 => h.1 (h2 ▸ List.mem_map_of_mem _ h1)
      rw [ih h.2 d h1]
      simp [hne]

theorem hitsRows_of_nodup {V : Type} (R : Reflect V) (inValue : V) (wp : Bool)
    (fs : List fieldInfo) (h : (fs.map fieldInfo.getFirstKey).Nodup) (d : fieldInfo)
    (hd : d ∈ fs) :
    ∀ (idxs : List Nat),
      hitsRows R inValue wp fs d.getFirstKey idxs =
        idxs.countP (fun i => isEmptyCell R (R.Index inValue i) wp d) := by
  intro idxs
  induction idxs with
  | nil => rfl
  | cons i rest ih =>
    simp only [hitsRows, ih, hitsRow_of_nodup R _ wp fs h d hd, List.countP_cons]
    ring


/-! ## Elision with pairwise distinct keys -/

theorem eraseFirst_eq_filter (key : String) :
    ∀ (fs : List fieldInfo), (fs.map fieldInfo.getFirstKey).Nodup →
      eraseFirst key fs = fs.filter (fun d => !decide (key = d.getFirstKey)) := by
  intro fs
  induction fs with
  | nil => intro _; rfl
  | cons f fs ih =>
    intro h
    simp only [List.map_cons, List.nodup_cons] at h
    by_cases hk : key = f.getFirstKey
    · have hall : ∀ d ∈ fs, (!decide (key = d.getFirstKey)) = true := by
        intro d hd
        have : key ≠ d.getFirstKey := fun h1 => h.1 (hk ▸ h1 ▸ List.mem_map_of_mem _ hd)
        simp [this]
      simp only [eraseFirst, hk, if_true, List.filter_cons, decide_True, Bool.not_true,
        Bool.false_eq_true, if_false]
      rw [← hk]
      exact (List.filter_eq_self.mpr hall).symm
    · simp only [eraseFirst, hk, if_false, List.filter_cons, decide_False, Bool.not_false,
        if_true, ih h.2]

theorem nodup_keys_filter (p : fieldInfo → Bool) (fs : List fieldInfo)
    (h : (fs.map fieldInfo.getFirstKey).Nodup) :
    ((fs.filter p).map fieldInfo.getFirstKey).Nodup :=
  h.sublist ((List.filter_sublist fs).map _)

theorem elideFields_eq_filter (inLen : Nat) :
    ∀ (π : List (String × Int)) (fs : List fieldInfo), (fs.map fieldInfo.getFirstKey).Nodup →
      elideFields inLen π fs =
        fs.filter (fun d =>
          !(π.any (fun e => decide (e.2 = (inLen : Int)) && decide (e.1 = d.getFirstKey)))) := by
  intro π
  induction π with
  | nil => intro fs _; simp [elideFields]
  | cons e π ih =>
    intro fs h
    rcases e with ⟨key, c⟩
    simp only [elideFields]
    by_cases hc : c = (inLen : Int)
    · simp only [hc, if_true, eraseFirst_eq_filter key fs h]
      rw [ih _ (nodup_keys_filter _ fs h), List.filter_filter]
      apply List.filter_congr
      intro d _
      simp [Bool.and_comm]
    · simp only [hc, if_false, ih fs h]
      apply List.filter_congr
      intro d _
      simp [hc]

theorem anyToOmit_iff (l : List (String × Int)) :
    anyToOmit l = true ↔ ∃ e ∈ l, e.2 ≠ -1 := by
  induction l with
  | nil => simp [anyToOmit]
  | cons e l ih =>
    rcases e with ⟨k, v⟩
    simp only [anyToOmit]
    by_cases hv : v = -1
    · simp [hv, ih]
    · simp [hv]

/-- Under a range that permutes the entries, the elision loop reaches a key with
the row count exactly when the map holds the row count for that key. -/
theorem any_range_iff (ω : MapRange) (hω : ω.Valid) (j : Nat) (m : headersToOmit)
    (hm : (m.map Prod.fst).Nodup) (n : Nat) (k : String) (hk : k ∈ m.map Prod.fst) :
    (ω j m).any (fun e => decide (e.2 = (n : Int)) && decide (e.1 = k)) = true ↔
      m.get k = (n : Int) := by
  rw [List.any_eq_true]
  constructor
  · rintro ⟨⟨k1, c⟩, he, hcond⟩
    simp only [Bool.and_eq_true, decide_eq_true_eq] at hcond
    have hmem : (k1, c) ∈ m := (hω j m).mem_iff.mp he
    have := (mem_iff_get m hm k1 c).mp hmem
    rw [← hcond.2, this.2, hcond.1]
  · intro hg
    refine ⟨(k, (n : Int)), (hω j m).mem_iff.mpr ((mem_iff_get m hm k n).mpr ⟨hk, hg⟩), ?_⟩
    simp

theorem remainingOf_of_nodup {V : Type} (R : Reflect V) (ω : MapRange) (x : Iface V)
    (hω : ω.Valid) (hk : ((fieldsOf R x).map fieldInfo.getFirstKey).Nodup)
    (cell : Nat → fieldInfo → String)
    (hp : ∀ i < inLenOf R x, ∀ d ∈ fieldsOf R x, projectAt R x i d = .ok (cell i d)) :
    remainingOf R ω x =
      .ok (((fieldsOf R x).filter (keepColumn (inLenOf R x) cell)).map fieldInfo.getFirstKey,
        (fieldsOf R x).filter (keepColumn (inLenOf R x) cell)) := by
  have hm0 : ((initCounters (fieldsOf R x) []).map Prod.fst).Nodup :=
    nodup_keys_initCounters _ [] (by simp)
  have hkeys0 : ∀ d ∈ fieldsOf R x,
      d.getFirstKey ∈ (initCounters (fieldsOf R x) []).map Prod.fst := fun d hd =>
    (mem_keys_initCounters _ [] _).mpr (Or.inr (List.mem_map_of_mem _ hd))
  unfold remainingOf omitStage
  simp only [headerLoop_eq, labelLoop_fresh]
  split
  · obtain ⟨m1, hm1⟩ := countRows_ok R (inValueOf R x) (innerWasPointerOf R x) (fieldsOf R x)
      (List.range (R.Len (inValueOf R x))) (initCounters (fieldsOf R x) [])
      (fun i hi d hd => ⟨cell i d, hp i (List.mem_range.mp hi) d hd⟩)
    have hkeys1 := countRows_keys R _ _ _ _ _ m1 hm1 hkeys0
    simp only [hm1, elide_eq, elideFields_eq_filter _ _ _ hk]
    have hfilter : (fieldsOf R x).filter (fun d =>
          !((ω 1 m1).any (fun e =>
            decide (e.2 = ((R.Len (inValueOf R x) : Nat) : Int)) &&
              decide (e.1 = d.getFirstKey)))) =
        (fieldsOf R x).filter (keepColumn (inLenOf R x) cell) := by
      apply List.filter_congr
      intro d hd
      have hiff := any_range_iff ω hω 1 m1 (by rw [hkeys1]; exact hm0) (R.Len (inValueOf R x))
        d.getFirstKey (by rw [hkeys1]; exact hkeys0 d hd)
      have hget := countRows_get R _ _ _ _ _ m1 hm1 d.getFirstKey
      rw [get_initCounters _ [] hk d hd, hitsRows_of_nodup R _ _ _ hk d hd] at hget
      have hcount : (List.range (R.Len (inValueOf R x))).countP
            (fun i => isEmptyCell R (R.Index (inValueOf R x) i) (innerWasPointerOf R x) d) =
          (List.range (R.Len (inValueOf R x))).countP (fun i => decide (cell i d = "")) := by
        apply List.countP_congr
        intro i hi
        have := hp i (List.mem_range.mp hi) d hd
        simp only [projectAt] at this
        simp [isEmptyCell, this]
      rw [hcount] at hget
      have hle := List.countP_le_length (fun i => decide (cell i d = ""))
        (l := List.range (R.Len (inValueOf R x)))
      rw [List.length_range] at hle
      have hall : (List.range (R.Len (inValueOf R x))).countP (fun i => decide (cell i d = "")) =
            R.Len (inValueOf R x) ↔
          (List.range (R.Len (inValueOf R x))).all (fun i => decide (cell i d = "")) = true := by
        rw [List.all_eq_true]
        have h1 := List.countP_eq_length (p := fun i => decide (cell i d = ""))
          (l := List.range (R.Len (inValueOf R x)))
        rw [List.length_range] at h1
        exact h1
      rw [Bool.eq_iff_iff]
      simp only [Bool.not_eq_true', keepColumn, inLenOf]
      rw [← Bool.not_eq_true, hiff, hget, ← Bool.not_eq_true, Bool.and_eq_true, ← hall]
      cases d.omitEmpty
      · simp; omega
      · simp
    rw [hfilter]
  · rename_i hany
    have hnone : ∀ d ∈ fieldsOf R x, d.omitEmpty = false := by
      intro d hd
      by_contra hne
      apply hany
      rw [anyToOmit_iff]
      refine ⟨(d.getFirstKey, (initCounters (fieldsOf R x) []).get d.getFirstKey),
        (hω 0 _).mem_iff.mpr ((mem_iff_get _ hm0 _ _).mpr ⟨hkeys0 d hd, rfl⟩), ?_⟩
      rw [get_initCounters _ [] hk d hd]
      simp [hne]
    have hself : (fieldsOf R x).filter (keepColumn (inLenOf R x) cell) = fieldsOf R x := by
      rw [List.filter_eq_self]
      intro d hd
      simp [keepColumn, hnone d hd]
    rw [hself]


/-! ## Consequences for the log -/

theorem exec_flushed_state {σ : Type} (w : SafeCSVWriter σ) (p : Plan) (writer : Sink σ)
    (hs : p.stop = none) (hr : (exec w p writer).2 = none ∨ (drive w p.rows writer).2 = none) :
    ∃ st, (exec w p writer).1.st = w.Flush st := by
  unfold exec at hr ⊢
  cases hd : (drive w p.rows writer).2 with
  | some err => simp [hd] at hr
  | none =>
    simp only [hs]
    exact ⟨_, rfl⟩

theorem exec_failure {σ : Type} (w : SafeCSVWriter σ) (p : Plan) (s0 : σ) (k : Nat)
    (row : List String) (err : GoError)
    (h : (exec w p (Sink.fresh s0)).1.calls[k]? = some (Call.Write row (some err))) :
    (exec w p (Sink.fresh s0)).2 = some err ∧ k < p.rows.length ∧
      (exec w p (Sink.fresh s0)).1.calls =
        (p.rows.take k).map written ++ [Call.Write row (some err)] := by
  rcases exec_log w p s0 with ⟨hc, _⟩ | ⟨k1, row1, err1, st, hk1, _, _, h2, hc⟩
  · exfalso
    have hmem := List.getElem?_mem h
    rw [hc] at hmem
    rcases List.mem_append.mp hmem with h1 | h1
    · obtain ⟨r, _, hr⟩ := List.mem_map.mp h1
      simp [written] at hr
    · split at h1 <;> simp at h1
  · have hlen : ((p.rows.take k1).map written).length = k1 := by
      simp only [List.length_map, List.length_take]
      omega
    rw [hc] at h
    rcases Nat.lt_trichotomy k k1 with hlt | heq | hgt
    · exfalso
      rw [List.getElem?_append_left (by rw [hlen]; exact hlt)] at h
      have hmem := List.getElem?_mem h
      obtain ⟨r, _, hr⟩ := List.mem_map.mp hmem
      simp [written] at hr
    · subst heq
      rw [List.getElem?_append_right (by rw [hlen]), hlen] at h
      simp only [Nat.sub_self, List.getElem?_cons_zero, Option.some.injEq, Call.Write.injEq] at h
      obtain ⟨hrow, herr⟩ := h
      subst hrow
      subst herr
      exact ⟨h2, hk1, hc⟩
    · exfalso
      have : ((p.rows.take k1).map written ++ [Call.Write row1 (some err1)]).length ≤ k := by
        rw [List.length_append, hlen]
        simp
        omega
      rw [List.getElem?_eq_none this] at h
      cases h

/-- The general form of sink-error propagation, for any plan: a failing `Write` in the log
is the last call, its error is returned, no `Flush` is logged, and the calls before it
are those a writer without write errors logs first. -/
theorem exec_failure_full {σ τ : Type} (w : SafeCSVWriter σ) (w1 : SafeCSVWriter τ)
    (hw1 : WritesSucceed w1) (p : Plan) (s0 : σ) (t0 : τ) (k : Nat)
    (row : List String) (err : GoError)
    (h : (exec w p (Sink.fresh s0)).1.calls[k]? = some (Call.Write row (some err))) :
    (exec w p (Sink.fresh s0)).2 = some err ∧
      (exec w p (Sink.fresh s0)).1.calls.length = k + 1 ∧
      Call.Flush ∉ (exec w p (Sink.fresh s0)).1.calls ∧
      (exec w p (Sink.fresh s0)).1.calls.take k = (exec w1 p (Sink.fresh t0)).1.calls.take k := by
  obtain ⟨h2, hk, hc⟩ := exec_failure w p s0 k row err h
  have hlen : ((p.rows.take k).map written).length = k := by
    simp only [List.length_map, List.length_take]
    omega
  refine ⟨h2, ?_, ?_, ?_⟩
  · rw [hc, List.length_append, hlen]
    rfl
  · rw [hc]
    intro hmem
    rcases List.mem_append.mp hmem with h1 | h1
    · obtain ⟨r, _, hr⟩ := List.mem_map.mp h1
      simp [written] at hr
    · simp at h1
  · rw [hc, (exec_log_of_writesSucceed w1 hw1 p t0).1]
    rw [List.take_append_of_le_length (by rw [hlen]),
      List.take_append_of_le_length (by rw [List.length_map]; omega)]
    rw [List.take_of_length_le (by rw [hlen]), List.map_take]

theorem exec_clean {σ : Type} (w : SafeCSVWriter σ) (p : Plan) (s0 : σ) (hs : p.stop = none)
    (h : ∀ c ∈ (exec w p (Sink.fresh s0)).1.calls, c.err? = none) :
    (exec w p (Sink.fresh s0)).1.calls = p.rows.map written ++ [Call.Flush] ∧
      (exec w p (Sink.fresh s0)).2 = w.Error (exec w p (Sink.fresh s0)).1.st ∧
      ∃ st, (exec w p (Sink.fresh s0)).1.st = w.Flush st := by
  rcases exec_log w p s0 with ⟨hc, h2⟩ | ⟨k, row, err, st, _, _, _, _, hc⟩
  · rw [hs] at hc h2
    refine ⟨hc, h2, ?_⟩
    apply exec_flushed_state w p _ hs
    right
    rcases drive_log w p.rows (Sink.fresh s0) with ⟨hd, _⟩ | ⟨k, row, err, st, _, _, _, hd, hdc⟩
    · exact hd
    · exfalso
      have hcalls : (exec w p (Sink.fresh s0)).1.calls = (drive w p.rows (Sink.fresh s0)).1.calls := by
        unfold exec; rw [hd]
      have hmem : Call.Write row (some err) ∈ (exec w p (Sink.fresh s0)).1.calls := by
        rw [hcalls, hdc]; simp
      have := h _ hmem
      simp [Call.err?] at this
  · exfalso
    have hmem : Call.Write row (some err) ∈ (exec w p (Sink.fresh s0)).1.calls := by
      rw [hc]; simp
    have := h _ hmem
    simp [Call.err?] at this

/-! ## The plan of `writeFromChan` -/

theorem planChan_ok {V : Type} (R : Reflect V) (wp : Bool) (fs : List fieldInfo)
    (cell : Iface V → fieldInfo → String) :
    ∀ (c : List (Iface V)) (labels : List String), labels.length = fs.length →
      (∀ v ∈ c, ∀ d ∈ fs,
        getInnerField R (getConcreteReflectValueAndType R v).1 wp d.IndexChain = .ok (cell v d)) →
      planChan R wp fs c labels = ⟨c.map (fun v => fs.map (cell v)), none⟩ := by
  intro c
  induction c with
  | nil => intro labels _ _; rfl
  | cons v rest ih =>
    intro labels hl h
    have hp := projectAll_of_ok R (getConcreteReflectValueAndType R v).1 wp (cell v) fs
      (h v (List.mem_cons_self _ _))
    simp only [planChan]
    rw [fillRow_eq_projectAll R _ wp fs labels hl, hp]
    have hrest := ih (fs.map (cell v)) (by simp)
      (fun u hu d hd => h u (List.mem_cons_of_mem _ hu) d hd)
    simp only [hrest, List.map_cons]

theorem writeFromChanPlan_ok {V : Type} (R : Reflect V) (firstValue : Iface V)
    (rest : List (Iface V)) (hT : ensureStructOrPtr (inTypeOf R firstValue) = none)
    (cell : Iface V → fieldInfo → String)
    (hp : ∀ v ∈ firstValue :: rest, ∀ d ∈ R.getStructInfo (inTypeOf R firstValue),
      getInnerField R (getConcreteReflectValueAndType R v).1
        (decide ((inTypeOf R firstValue).Kind = Kind.Ptr)) d.IndexChain = .ok (cell v d)) :
    writeFromChanPlan R (firstValue :: rest) =
      ⟨(R.getStructInfo (inTypeOf R firstValue)).map fieldInfo.getFirstKey ::
        (firstValue :: rest).map
          (fun v => (R.getStructInfo (inTypeOf R firstValue)).map (cell v)), none⟩ := by
  unfold writeFromChanPlan
  simp only [hT, labelLoop_fresh]
  rw [planChan_ok R _ _ cell (firstValue :: rest) _ (by simp) hp]


/-! ## The claims -/

/-- C1. Omission correctness of `writeTo`: with pairwise distinct keys, projections
that all succeed (their values are `cell i d`) and a writer whose writes succeed, the
columns that remain after elision are exactly the descriptors `d`, in declaration
order, for which it is not the case that `d` is `omitEmpty` and empty in every one of
the `n` rows, and the first row written (with `omitHeaders = false`) is the list of
their keys.  This holds for every order in which the counter map is ranged over. -/
theorem writeTo_header_omission {V σ : Type} (R : Reflect V) (w : SafeCSVWriter σ)
    (ω : MapRange) (s0 : σ) (x : Iface V) (hω : ω.Valid) (hS : ShapeOk R x)
    (hk : ((fieldsOf R x).map fieldInfo.getFirstKey).Nodup)
    (cell : Nat → fieldInfo → String)
    (hp : ∀ i < inLenOf R x, ∀ d ∈ fieldsOf R x, projectAt R x i d = .ok (cell i d))
    (hw : WritesSucceed w) :
    remainingOf R ω x =
        .ok (((fieldsOf R x).filter (keepColumn (inLenOf R x) cell)).map fieldInfo.getFirstKey,
          (fieldsOf R x).filter (keepColumn (inLenOf R x) cell)) ∧
      (writeTo R w ω (Sink.fresh s0) x false).1.calls.head? =
        some (Call.Write
          (((fieldsOf R x).filter (keepColumn (inLenOf R x) cell)).map fieldInfo.getFirstKey)
          none) := by
  have hrem := remainingOf_of_nodup R ω x hω hk cell hp
  refine ⟨hrem, ?_⟩
  rw [writeTo_eq_exec, (exec_log_of_writesSucceed w hw _ s0).1,
    writeToPlan_of_shape R ω x false hS _ hrem]
  simp [written]

theorem writeTo_header_omission_witness :
    (inOrder.Valid ∧ ShapeOk (valReflect nameTagFields) tagsEmpty ∧
      ((fieldsOf (valReflect nameTagFields) tagsEmpty).map fieldInfo.getFirstKey).Nodup ∧
      WritesSucceed okWriter) ∧
    (writeTo (valReflect nameTagFields) okWriter inOrder (Sink.fresh ()) tagsEmpty false).1.calls.head?
      = some (Call.Write ["Name"] none) := by
  have hω : inOrder.Valid := fun _ m => List.Perm.refl m
  have hS : ShapeOk (valReflect nameTagFields) tagsEmpty := by decide
  have hk : ((fieldsOf (valReflect nameTagFields) tagsEmpty).map fieldInfo.getFirstKey).Nodup := by
    decide
  have hw : WritesSucceed okWriter := fun _ _ => rfl
  have hp : ∀ i < inLenOf (valReflect nameTagFields) tagsEmpty,
      ∀ d ∈ fieldsOf (valReflect nameTagFields) tagsEmpty,
        projectAt (valReflect nameTagFields) tagsEmpty i d =
          .ok (cellOf (valReflect nameTagFields) tagsEmpty i d) := by
    decide
  exact ⟨⟨hω, hS, hk, hw⟩,
    (writeTo_header_omission (valReflect nameTagFields) okWriter inOrder () tagsEmpty
      hω hS hk (cellOf (valReflect nameTagFields) tagsEmpty) hp hw).2⟩


/-! ### Helpers for the remaining claims on `writeTo` -/

theorem exec_rows_subset {σ : Type} (w : SafeCSVWriter σ) (p : Plan) (s0 : σ)
    (row : List String) (res : Option GoError)
    (h : Call.Write row res ∈ (exec w p (Sink.fresh s0)).1.calls) : row ∈ p.rows := by
  rcases exec_log w p s0 with ⟨hc, _⟩ | ⟨k, row1, err, st, _, hrow, _, _, hc⟩
  · rw [hc] at h
    rcases List.mem_append.mp h with h1 | h1
    · obtain ⟨r, hr, hrw⟩ := List.mem_map.mp h1
      simp only [written, Call.Write.injEq] at hrw
      rw [← hrw.1]; exact hr
    · split at h1 <;> simp at h1
  · rw [hc] at h
    rcases List.mem_append.mp h with h1 | h1
    · obtain ⟨r, hr, hrw⟩ := List.mem_map.mp h1
      simp only [written, Call.Write.injEq] at hrw
      rw [← hrw.1]; exact List.mem_of_mem_take hr
    · simp only [List.mem_singleton, Call.Write.injEq] at h1
      rw [h1.1]; exact List.getElem?_mem hrow

theorem exec_head {σ : Type} (w : SafeCSVWriter σ) (r : List String)
    (rest : List (List String)) (stop : Option GoError) (s0 : σ) :
    ∃ res, (exec w ⟨r :: rest, stop⟩ (Sink.fresh s0)).1.calls.head? = some (Call.Write r res) := by
  rcases exec_log w ⟨r :: rest, stop⟩ s0 with ⟨hc, _⟩ | ⟨k, row1, err, st, _, hrow, _, _, hc⟩
  · exact ⟨none, by rw [hc]; simp [written]⟩
  · cases k with
    | zero =>
      simp only [List.getElem?_cons_zero, Option.some.injEq] at hrow
      exact ⟨some err, by rw [hc, hrow]; simp⟩
    | succ j => exact ⟨none, by rw [hc]; simp [written]⟩

theorem writeToPlan_of_error {V : Type} (R : Reflect V) (ω : MapRange) (x : Iface V)
    (omitHeaders : Bool) (err : GoError) (hc : remainingOf R ω x = .error err) :
    ∃ e, writeToPlan R ω x omitHeaders = ⟨[], some e⟩ := by
  unfold writeToPlan
  cases ensureInType (inTypeOf R x) with
  | some e => exact ⟨e, rfl⟩
  | none =>
    cases ensureInInnerType (innerTypeOf R x) with
    | some e => exact ⟨e, rfl⟩
    | none => exact ⟨err, by simp only [hc]⟩

theorem mem_set (m : headersToOmit) (k : String) (v : Int) (e : String × Int)
    (h : e ∈ m.set k v) : e ∈ m ∨ e = (k, v) := by
  induction m with
  | nil => simp only [headersToOmit.set, List.mem_singleton] at h; exact Or.inr h
  | cons e0 m ih =>
    rcases e0 with ⟨k0, v0⟩
    by_cases h0 : k0 = k
    · simp only [headersToOmit.set, h0, if_true, List.mem_cons] at h
      rcases h with h | h
      · exact Or.inr h
      · exact Or.inl (List.mem_cons_of_mem _ h)
    · simp only [headersToOmit.set, h0, if_false, List.mem_cons] at h
      rcases h with h | h
      · exact Or.inl (h ▸ List.mem_cons_self _ _)
      · rcases ih h with h1 | h1
        · exact Or.inl (List.mem_cons_of_mem _ h1)
        · exact Or.inr h1

theorem initCounters_all_sentinel :
    ∀ (fs : List fieldInfo) (m : headersToOmit), (∀ d ∈ fs, d.omitEmpty = false) →
      (∀ e ∈ m, e.2 = -1) → ∀ e ∈ initCounters fs m, e.2 = -1 := by
  intro fs
  induction fs with
  | nil => intro m _ hm e he; exact hm e he
  | cons f fs ih =>
    intro m hf hm e he
    simp only [initCounters] at he
    refine ih _ (fun d hd => hf d (List.mem_cons_of_mem _ hd)) ?_ e he
    intro e1 he1
    rcases mem_set m _ _ e1 he1 with h | h
    · exact hm e1 h
    · rw [h]; simp [hf f (List.mem_cons_self _ _)]

theorem remainingOf_of_none_omitEmpty {V : Type} (R : Reflect V) (ω : MapRange) (x : Iface V)
    (hω : ω.Valid) (h : ∀ d ∈ fieldsOf R x, d.omitEmpty = false) :
    remainingOf R ω x = .ok ((fieldsOf R x).map fieldInfo.getFirstKey, fieldsOf R x) := by
  unfold remainingOf omitStage
  simp only [headerLoop_eq, labelLoop_fresh]
  have hany : ¬ anyToOmit (ω 0 (initCounters (fieldsOf R x) [])) = true := by
    rw [anyToOmit_iff]
    rintro ⟨e, he, hne⟩
    exact hne (initCounters_all_sentinel _ [] h (by simp) e ((hω 0 _).mem_iff.mp he))
  rw [if_neg hany]

/-- C2. The sentinel guarantee fails when keys are shared.  First input: two
descriptors that are not `omitEmpty` share the key `x`; in the single record both are
empty, so the pre-pass raises the counter of `x` from `-1` to `1`, the row count, and
the first `x` column is removed.  Second input: a descriptor that is not `omitEmpty`
shares the key `x` with one that is; the column of the first, holding `a`, is
removed.  Both outcomes are the same for the two orders in which the counter map can
be ranged over. -/
theorem writeTo_removes_column_without_omitEmpty :
    (countRows (valReflect sharedKeyFields) (inValueOf (valReflect sharedKeyFields) sharedKeyInput)
        false sharedKeyFields [0] (initCounters sharedKeyFields []) = .ok [("x", 1), ("c", 0)] ∧
      remainingOf (valReflect sharedKeyFields) inOrder sharedKeyInput =
        .ok (["x", "c"], [⟨"x", false, [1]⟩, ⟨"c", true, [2]⟩]) ∧
      remainingOf (valReflect sharedKeyFields) reversed sharedKeyInput =
        .ok (["x", "c"], [⟨"x", false, [1]⟩, ⟨"c", true, [2]⟩]) ∧
      (writeTo (valReflect sharedKeyFields) okWriter inOrder (Sink.fresh ()) sharedKeyInput
          false).1.calls =
        [Call.Write ["x", "c"] none, Call.Write ["", "v"] none, Call.Flush]) ∧
    (remainingOf (valReflect mixedKeyFields) inOrder mixedKeyInput =
        .ok (["x"], [⟨"x", true, [1]⟩]) ∧
      remainingOf (valReflect mixedKeyFields) reversed mixedKeyInput =
        .ok (["x"], [⟨"x", true, [1]⟩]) ∧
      (writeTo (valReflect mixedKeyFields) okWriter inOrder (Sink.fresh ()) mixedKeyInput
          false).1.calls =
        [Call.Write ["x"] none, Call.Write [""] none, Call.Flush]) :=
  ⟨⟨rfl, rfl, rfl, rfl⟩, ⟨rfl, rfl, rfl⟩⟩

/-- C3. Row content and order of `writeTo`: when the shape checks pass, every
projection succeeds (with value `cell i d`) and the writer never fails, the calls on the
writer with `omitHeaders = false` are: the header, which is the list of keys of the
descriptors `fs` that remain after elision; then for `i = 0..n-1`, in order, the row of
the projections of record `i` through `fs`; then one `Flush`.  The call returns no
error. -/
theorem writeTo_rows {V σ : Type} (R : Reflect V) (w : SafeCSVWriter σ) (ω : MapRange)
    (s0 : σ) (x : Iface V) (hS : ShapeOk R x) (cell : Nat → fieldInfo → String)
    (hp : ∀ i < inLenOf R x, ∀ d ∈ fieldsOf R x, projectAt R x i d = .ok (cell i d))
    (hw : NeverFails w) :
    ∃ fs, remainingOf R ω x = .ok (fs.map fieldInfo.getFirstKey, fs) ∧
      fs.Sublist (fieldsOf R x) ∧
      (writeTo R w ω (Sink.fresh s0) x false).1.calls =
        Call.Write (fs.map fieldInfo.getFirstKey) none ::
          ((List.range (inLenOf R x)).map (fun i => Call.Write (fs.map (cell i)) none) ++
            [Call.Flush]) ∧
      (writeTo R w ω (Sink.fresh s0) x false).2 = none := by
  obtain ⟨fs, hfs, hsub, hplan⟩ := writeToPlan_ok R ω x false hS cell hp
  obtain ⟨hc, hr⟩ := exec_log_of_writesSucceed w hw.1 (writeToPlan R ω x false) s0
  refine ⟨fs, hfs, hsub, ?_, ?_⟩
  · rw [writeTo_eq_exec, hc, hplan]
    simp [written]
  · rw [writeTo_eq_exec, hr, hplan]
    exact hw.2 _

theorem writeTo_rows_witness :
    (ShapeOk (valReflect nameTagFields) oneTag ∧ NeverFails okWriter) ∧
    ∃ fs, remainingOf (valReflect nameTagFields) reversed oneTag =
        .ok (fs.map fieldInfo.getFirstKey, fs) ∧
      fs.Sublist (fieldsOf (valReflect nameTagFields) oneTag) ∧
      (writeTo (valReflect nameTagFields) okWriter reversed (Sink.fresh ()) oneTag false).1.calls =
        Call.Write (fs.map fieldInfo.getFirstKey) none ::
          ((List.range (inLenOf (valReflect nameTagFields) oneTag)).map
              (fun i => Call.Write (fs.map (cellOf (valReflect nameTagFields) oneTag i)) none) ++
            [Call.Flush]) ∧
      (writeTo (valReflect nameTagFields) okWriter reversed (Sink.fresh ()) oneTag false).2 =
        none := by
  have hS : ShapeOk (valReflect nameTagFields) oneTag := by decide
  have hw : NeverFails okWriter := ⟨fun _ _ => rfl, fun _ => rfl⟩
  exact ⟨⟨hS, hw⟩,
    writeTo_rows (valReflect nameTagFields) okWriter reversed () oneTag hS
      (cellOf (valReflect nameTagFields) oneTag) (by decide) hw⟩


/-- C4. Uniform column count: for every input, writer and range order, every row
handed to the writer by `writeTo`, header and data rows alike, whether or not the write
succeeds, has as many cells as there are descriptors left after elision (and nothing is
handed over when the pre-pass fails).  When no descriptor is `omitEmpty`, nothing is
elided: that number is the full descriptor count, and the header is the complete list
of keys. -/
theorem writeTo_uniform_columns {V σ : Type} (R : Reflect V) (w : SafeCSVWriter σ)
    (ω : MapRange) (s0 : σ) (x : Iface V) (omitHeaders : Bool) (hω : ω.Valid) :
    (∀ cols, remainingOf R ω x = .ok cols →
      ∀ row res, Call.Write row res ∈ (writeTo R w ω (Sink.fresh s0) x omitHeaders).1.calls →
        row.length = cols.2.length) ∧
    (∀ err, remainingOf R ω x = .error err →
      (writeTo R w ω (Sink.fresh s0) x omitHeaders).1.calls = []) ∧
    ((∀ d ∈ fieldsOf R x, d.omitEmpty = false) →
      remainingOf R ω x = .ok ((fieldsOf R x).map fieldInfo.getFirstKey, fieldsOf R x) ∧
      (ShapeOk R x → ∃ res, (writeTo R w ω (Sink.fresh s0) x false).1.calls.head? =
        some (Call.Write ((fieldsOf R x).map fieldInfo.getFirstKey) res))) := by
  refine ⟨?_, ?_, ?_⟩
  · intro cols hc row res hmem
    rw [writeTo_eq_exec] at hmem
    exact writeToPlan_rows_length R ω x omitHeaders cols hc row
      (exec_rows_subset w _ s0 row res hmem)
  · intro err hc
    obtain ⟨e, he⟩ := writeToPlan_of_error R ω x omitHeaders err hc
    rw [writeTo_eq_exec, he, exec_stopped]
    rfl
  · intro hno
    have hrem := remainingOf_of_none_omitEmpty R ω x hω hno
    refine ⟨hrem, ?_⟩
    intro hS
    rw [writeTo_eq_exec, writeToPlan_of_shape R ω x false hS _ hrem]
    exact exec_head w _ _ _ s0

theorem writeTo_uniform_columns_witness :
    reversed.Valid ∧
    (∀ cols, remainingOf (valReflect nameTagFields) reversed tagsEmpty = .ok cols →
      ∀ row res, Call.Write row res ∈
          (writeTo (valReflect nameTagFields) (countingWriter 2 ⟨"disk full"⟩ none) reversed
            (Sink.fresh 0) tagsEmpty false).1.calls →
        row.length = cols.2.length) := by
  have hω : reversed.Valid := fun _ m => List.reverse_perm m
  exact ⟨hω, (writeTo_uniform_columns (valReflect nameTagFields)
    (countingWriter 2 ⟨"disk full"⟩ none) reversed 0 tagsEmpty false hω).1⟩

/-- C5. Shape rejection in `writeTo`: `ensureInType` returns an error exactly when the
kind of the concrete type is neither slice nor array; `ensureInInnerType` returns an
error exactly when the kind of the type it is given, the element type with one pointer
taken away, is not struct; and when either check fails `writeTo` returns that error
and leaves the writer as it was: no `Write`, no `Flush`. -/
theorem writeTo_shape_rejection {V σ : Type} (R : Reflect V) (w : SafeCSVWriter σ)
    (ω : MapRange) (writer : Sink σ) (x : Iface V) (omitHeaders : Bool) :
    (∀ t : GoType, (ensureInType t).isSome = true ↔ (t.Kind ≠ Kind.Slice ∧ t.Kind ≠ Kind.Array)) ∧
    (∀ t : GoType, (ensureInInnerType t).isSome = true ↔ t.Kind ≠ Kind.Struct) ∧
    innerTypeOf R x =
      (if (inTypeOf R x).Elem.Kind = Kind.Ptr then (inTypeOf R x).Elem.Elem
       else (inTypeOf R x).Elem) ∧
    (∀ err, ensureInType (inTypeOf R x) = some err →
      writeTo R w ω writer x omitHeaders = (writer, some err)) ∧
    (∀ err, ensureInType (inTypeOf R x) = none →
      ensureInInnerType (innerTypeOf R x) = some err →
      writeTo R w ω writer x omitHeaders = (writer, some err)) := by
  refine ⟨?_, ?_, ?_, ?_, ?_⟩
  · intro t
    unfold ensureInType
    cases h : t.Kind <;> simp
  · intro t
    unfold ensureInInnerType
    cases h : t.Kind <;> simp
  · unfold innerTypeOf getConcreteContainerInnerType
    split <;> rfl
  · intro err h
    have h1 : ensureInType (getConcreteReflectValueAndType R x).2 = some err := h
    unfold writeTo
    simp only [h1]
  · intro err h h2
    have h1 : ensureInType (getConcreteReflectValueAndType R x).2 = none := h
    have h3 : ensureInInnerType
        (getConcreteContainerInnerType (getConcreteReflectValueAndType R x).2).2 = some err := h2
    unfold writeTo
    simp only [h1, h3]

theorem writeTo_shape_rejection_witness :
    writeTo (valReflect nameTagFields) okWriter inOrder (Sink.fresh ()) bareRecord false =
        (Sink.fresh (), some ⟨"cannot use Rec, only slice or array supported"⟩) ∧
      writeTo (valReflect nameTagFields) okWriter inOrder (Sink.fresh ()) stringSlice false =
        (Sink.fresh (), some ⟨"cannot use string, only struct supported"⟩) :=
  ⟨(writeTo_shape_rejection (valReflect nameTagFields) okWriter inOrder (Sink.fresh ())
      bareRecord false).2.2.2.1 _ rfl,
    (writeTo_shape_rejection (valReflect nameTagFields) okWriter inOrder (Sink.fresh ())
      stringSlice false).2.2.2.2 _ rfl rfl⟩


theorem drive_of_writesSucceed {σ : Type} (w : SafeCSVWriter σ) (hw : WritesSucceed w) :
    ∀ (rows : List (List String)) (writer : Sink σ), (drive w rows writer).2 = none := by
  intro rows
  induction rows with
  | nil => intro writer; rfl
  | cons r rs ih =>
    intro writer
    have h : (Sink.Write w writer r).2 = none := hw writer.st r
    simp only [drive, h]
    exact ih _

/-- C6. Streaming order preservation: when the first item passes the shape check,
every projection succeeds (with value `cell v d`) and no `Write` fails, the calls
`writeFromChan` makes on the writer are: the header, which is the key of every
descriptor in declaration order (none is left out, `omitEmpty` or not); then one row
per item, in the order received, each the projection of the item through every
descriptor; then one `Flush`.  The call returns the error state of the writer after
the flush. -/
theorem writeFromChan_order {V σ : Type} (R : Reflect V) (w : SafeCSVWriter σ) (s0 : σ)
    (firstValue : Iface V) (rest : List (Iface V))
    (hT : ensureStructOrPtr (inTypeOf R firstValue) = none)
    (cell : Iface V → fieldInfo → String)
    (hp : ∀ v ∈ firstValue :: rest, ∀ d ∈ R.getStructInfo (inTypeOf R firstValue),
      getInnerField R (getConcreteReflectValueAndType R v).1
        (decide ((inTypeOf R firstValue).Kind = Kind.Ptr)) d.IndexChain = .ok (cell v d))
    (hw : WritesSucceed w) :
    (writeFromChan R w (Sink.fresh s0) (firstValue :: rest)).1.calls =
        Call.Write ((R.getStructInfo (inTypeOf R firstValue)).map fieldInfo.getFirstKey) none ::
          ((firstValue :: rest).map
              (fun v => Call.Write ((R.getStructInfo (inTypeOf R firstValue)).map (cell v)) none) ++
            [Call.Flush]) ∧
      (writeFromChan R w (Sink.fresh s0) (firstValue :: rest)).2 =
        w.Error (writeFromChan R w (Sink.fresh s0) (firstValue :: rest)).1.st ∧
      ∃ st, (writeFromChan R w (Sink.fresh s0) (firstValue :: rest)).1.st = w.Flush st := by
  have hplan := writeFromChanPlan_ok R firstValue rest hT cell hp
  obtain ⟨hc, hr⟩ := exec_log_of_writesSucceed w hw (writeFromChanPlan R (firstValue :: rest)) s0
  rw [writeFromChan_eq_exec]
  refine ⟨?_, ?_, ?_⟩
  · rw [hc, hplan]
    simp [written]
  · rw [hr, hplan]
  · exact exec_flushed_state w _ _ (by rw [hplan]) (Or.inr (drive_of_writesSucceed w hw _ _))


theorem writeFromChan_order_witness :
    (ensureStructOrPtr (inTypeOf (valReflect nameTagFields) firstItem) = none ∧
      WritesSucceed okWriter) ∧
    (writeFromChan (valReflect nameTagFields) okWriter (Sink.fresh ())
        (firstItem :: laterItems)).1.calls =
      [Call.Write ["Name", "Tag"] none, Call.Write ["A", ""] none, Call.Write ["B", "x"] none,
        Call.Write ["C", "y"] none, Call.Flush] := by
  have hT : ensureStructOrPtr (inTypeOf (valReflect nameTagFields) firstItem) = none := by decide
  have hw : WritesSucceed okWriter := fun _ _ => rfl
  exact ⟨⟨hT, hw⟩,
    (writeFromChan_order (valReflect nameTagFields) okWriter () firstItem laterItems hT
      (chanCellOf (valReflect nameTagFields) firstItem) (by decide) hw).1⟩

/-- C7. Streaming with an empty source: when the channel is closed before it yields an
item, `writeFromChan` returns an error and leaves the writer as it was: no `Write` (so
no header) and no `Flush`. -/
theorem writeFromChan_closed {V σ : Type} (R : Reflect V) (w : SafeCSVWriter σ)
    (writer : Sink σ) :
    writeFromChan R w writer [] = (writer, some ⟨"channel is closed"⟩) ∧
      (writeFromChan R w (Sink.fresh writer.st) []).1.calls = [] :=
  ⟨rfl, rfl⟩

/-- C8, as the code has it: `ensureStructOrPtr` succeeds exactly when the kind of the
type is struct or pointer, whatever the pointer points to; every type the specification
calls a record shape is among these. -/
theorem ensureStructOrPtr_iff (t : GoType) :
    (ensureStructOrPtr t = none ↔ (t.Kind = Kind.Struct ∨ t.Kind = Kind.Ptr)) ∧
      (isRecordShape t = true → ensureStructOrPtr t = none) := by
  constructor
  · unfold ensureStructOrPtr
    cases h : t.Kind <;> simp
  · intro h
    unfold ensureStructOrPtr
    cases t with
    | struct name => rfl
    | ptr e => rfl
    | _ => simp [isRecordShape] at h

/-- C8, as stated, fails: a pointer to `int` and a pointer to a pointer are not record
shapes, and `ensureStructOrPtr` returns no error for them. -/
theorem ensureStructOrPtr_accepts_any_pointer :
    (isRecordShape (GoType.ptr GoType.int) = false ∧
      ensureStructOrPtr (GoType.ptr GoType.int) = none) ∧
    (isRecordShape (GoType.ptr (GoType.ptr (GoType.struct "Rec"))) = false ∧
      ensureStructOrPtr (GoType.ptr (GoType.ptr (GoType.struct "Rec"))) = none) :=
  ⟨⟨rfl, rfl⟩, ⟨rfl, rfl⟩⟩

/-- C9. Sink-error propagation, in `writeTo` and in `writeFromChan`: if the call
number `k + 1` on the writer is a `Write` that returned the error `err`, then the
encode call returns exactly `err`, that `Write` is the last call on the writer (nothing
is written after it), no `Flush` is issued, and the `k` calls before it are the first
`k` calls made on a writer `w1` whose writes all succeed. -/
theorem sink_error_propagation {V σ τ : Type} (R : Reflect V) (w : SafeCSVWriter σ)
    (w1 : SafeCSVWriter τ) (ω : MapRange) (s0 : σ) (t0 : τ) (x : Iface V) (omitHeaders : Bool)
    (c : List (Iface V)) (k : Nat) (row : List String) (err : GoError)
    (hw1 : WritesSucceed w1) :
    ((writeTo R w ω (Sink.fresh s0) x omitHeaders).1.calls[k]? =
        some (Call.Write row (some err)) →
      (writeTo R w ω (Sink.fresh s0) x omitHeaders).2 = some err ∧
      (writeTo R w ω (Sink.fresh s0) x omitHeaders).1.calls.length = k + 1 ∧
      Call.Flush ∉ (writeTo R w ω (Sink.fresh s0) x omitHeaders).1.calls ∧
      (writeTo R w ω (Sink.fresh s0) x omitHeaders).1.calls.take k =
        (writeTo R w1 ω (Sink.fresh t0) x omitHeaders).1.calls.take k) ∧
    ((writeFromChan R w (Sink.fresh s0) c).1.calls[k]? = some (Call.Write row (some err)) →
      (writeFromChan R w (Sink.fresh s0) c).2 = some err ∧
      (writeFromChan R w (Sink.fresh s0) c).1.calls.length = k + 1 ∧
      Call.Flush ∉ (writeFromChan R w (Sink.fresh s0) c).1.calls ∧
      (writeFromChan R w (Sink.fresh s0) c).1.calls.take k =
        (writeFromChan R w1 (Sink.fresh t0) c).1.calls.take k) := by
  constructor
  · intro h
    rw [writeTo_eq_exec] at h
    simp only [writeTo_eq_exec]
    exact exec_failure_full w w1 hw1 _ s0 t0 k row err h
  · intro h
    rw [writeFromChan_eq_exec] at h
    simp only [writeFromChan_eq_exec]
    exact exec_failure_full w w1 hw1 _ s0 t0 k row err h

theorem sink_error_propagation_witness :
    WritesSucceed okWriter ∧
    ((writeTo (valReflect nameTagFields) (countingWriter 2 ⟨"disk full"⟩ none) inOrder
        (Sink.fresh 0) oneTag false).2 = some ⟨"disk full"⟩ ∧
      (writeTo (valReflect nameTagFields) (countingWriter 2 ⟨"disk full"⟩ none) inOrder
        (Sink.fresh 0) oneTag false).1.calls.length = 2) ∧
    ((writeFromChan (valReflect nameTagFields) (countingWriter 3 ⟨"disk full"⟩ none)
        (Sink.fresh 0) (firstItem :: laterItems)).2 = some ⟨"disk full"⟩ ∧
      (writeFromChan (valReflect nameTagFields) (countingWriter 3 ⟨"disk full"⟩ none)
        (Sink.fresh 0) (firstItem :: laterItems)).1.calls.length = 3) := by
  have hw : WritesSucceed okWriter := fun _ _ => rfl
  have h1 := (sink_error_propagation (valReflect nameTagFields)
    (countingWriter 2 ⟨"disk full"⟩ none) okWriter inOrder 0 () oneTag false
    (firstItem :: laterItems) 1 ["A", ""] ⟨"disk full"⟩ hw).1 (by decide)
  have h2 := (sink_error_propagation (valReflect nameTagFields)
    (countingWriter 3 ⟨"disk full"⟩ none) okWriter inOrder 0 () oneTag false
    (firstItem :: laterItems) 2 ["B", "x"] ⟨"disk full"⟩ hw).2 (by decide)
  exact ⟨hw, ⟨h1.1, h1.2.1⟩, ⟨h2.1, h2.2.1⟩⟩

/-- C10. Flush result: when the shape checks pass, every projection succeeds and no
`Write` of the call returns an error, the calls `writeTo` makes are writes followed by
exactly one `Flush`, the last call, and the value returned is the error state of the
writer after that flush, whatever it is. -/
theorem writeTo_flush_result {V σ : Type} (R : Reflect V) (w : SafeCSVWriter σ)
    (ω : MapRange) (s0 : σ) (x : Iface V) (omitHeaders : Bool) (hS : ShapeOk R x)
    (hp : ProjectionsSucceed R x)
    (hwr : ∀ c ∈ (writeTo R w ω (Sink.fresh s0) x omitHeaders).1.calls, c.err? = none) :
    (∃ rows : List (List String), (writeTo R w ω (Sink.fresh s0) x omitHeaders).1.calls =
        rows.map written ++ [Call.Flush]) ∧
      (writeTo R w ω (Sink.fresh s0) x omitHeaders).2 =
        w.Error (writeTo R w ω (Sink.fresh s0) x omitHeaders).1.st ∧
      ∃ st, (writeTo R w ω (Sink.fresh s0) x omitHeaders).1.st = w.Flush st := by
  have hcell : ∀ i < inLenOf R x, ∀ d ∈ fieldsOf R x,
      projectAt R x i d = .ok (cellOf R x i d) := by
    intro i hi d hd
    obtain ⟨v, hv⟩ := hp i hi d hd
    simp only [cellOf, hv]
  obtain ⟨fs, _, _, hplan⟩ := writeToPlan_ok R ω x omitHeaders hS (cellOf R x) hcell
  have hstop : (writeToPlan R ω x omitHeaders).stop = none := by rw [hplan]
  rw [writeTo_eq_exec] at hwr ⊢
  obtain ⟨hc, hr, hst⟩ := exec_clean w _ s0 hstop hwr
  exact ⟨⟨_, hc⟩, hr, hst⟩

theorem writeTo_flush_result_witness :
    (ShapeOk (valReflect nameTagFields) oneTag ∧
      ProjectionsSucceed (valReflect nameTagFields) oneTag) ∧
    (writeTo (valReflect nameTagFields) (countingWriter 0 ⟨"unused"⟩ (some ⟨"flush failed"⟩))
      inOrder (Sink.fresh 0) oneTag false).2 = some ⟨"flush failed"⟩ := by
  have hS : ShapeOk (valReflect nameTagFields) oneTag := by decide
  have hp : ProjectionsSucceed (valReflect nameTagFields) oneTag := by
    intro i hi d hd
    exact ⟨cellOf (valReflect nameTagFields) oneTag i d, by revert i d; decide⟩
  exact ⟨⟨hS, hp⟩,
    (writeTo_flush_result (valReflect nameTagFields)
      (countingWriter 0 ⟨"unused"⟩ (some ⟨"flush failed"⟩)) inOrder 0 oneTag false hS hp
      (by decide)).2.1⟩

/-! ## Elision with shared keys: first matches, in any order -/

theorem dropEach_nil : ∀ (fs : List fieldInfo), dropEach [] fs = fs := by
  intro fs
  induction fs with
  | nil => rfl
  | cons d rest ih => simp [dropEach, ih]

theorem dropEach_eraseFirst (k : String) :
    ∀ (fs : List fieldInfo) (ks : List String),
      dropEach ks (eraseFirst k fs) = dropEach (k :: ks) fs := by
  intro fs
  induction fs with
  | nil => intro ks; rfl
  | cons d rest ih =>
    intro ks
    by_cases hk : k = d.getFirstKey
    · subst hk
      simp [eraseFirst, dropEach]
    · have hne : ¬ (k == d.getFirstKey) = true := by simpa using hk
      have hne1 : ¬ d.getFirstKey = k := fun h => hk h.symm
      simp only [eraseFirst, hk, if_false, dropEach, List.mem_cons, hne1, false_or]
      by_cases hm : d.getFirstKey ∈ ks
      · simp only [hm, if_true, ih, List.erase_cons_tail hne]
      · simp only [hm, if_false, ih]

theorem elideFields_eq_dropEach (inLen : Nat) :
    ∀ (π : List (String × Int)) (fs : List fieldInfo),
      elideFields inLen π fs = dropEach (pendingKeys inLen π) fs := by
  intro π
  induction π with
  | nil => intro fs; simp [elideFields, pendingKeys, dropEach_nil]
  | cons e π ih =>
    intro fs
    rcases e with ⟨k, c⟩
    by_cases hc : c = (inLen : Int)
    · have hp : pendingKeys inLen ((k, c) :: π) = k :: pendingKeys inLen π := by
        simp [pendingKeys, hc]
      simp only [elideFields, hc, if_true, ih, dropEach_eraseFirst]
      rw [← hc, hp]
    · have hp : pendingKeys inLen ((k, c) :: π) = pendingKeys inLen π := by
        simp [pendingKeys, hc]
      simp only [elideFields, hc, if_false, ih, hp]

theorem dropEach_perm :
    ∀ (fs : List fieldInfo) (ks ks1 : List String), ks.Perm ks1 →
      dropEach ks fs = dropEach ks1 fs := by
  intro fs
  induction fs with
  | nil => intro ks ks1 _; rfl
  | cons d rest ih =>
    intro ks ks1 h
    simp only [dropEach]
    by_cases hm : d.getFirstKey ∈ ks
    · have hm1 : d.getFirstKey ∈ ks1 := h.mem_iff.mp hm
      simp only [hm, hm1, if_true]
      exact ih _ _ (h.erase _)
    · have hm1 : ¬ d.getFirstKey ∈ ks1 := fun h1 => hm (h.mem_iff.mpr h1)
      simp only [hm, hm1, if_false, ih ks ks1 h]

theorem pendingKeys_perm (inLen : Nat) (π π1 : List (String × Int)) (h : π.Perm π1) :
    (pendingKeys inLen π).Perm (pendingKeys inLen π1) :=
  (h.filter _).map _

theorem elideFields_perm (inLen : Nat) (π π1 : List (String × Int)) (h : π.Perm π1)
    (fs : List fieldInfo) : elideFields inLen π fs = elideFields inLen π1 fs := by
  rw [elideFields_eq_dropEach, elideFields_eq_dropEach]
  exact dropEach_perm fs _ _ (pendingKeys_perm inLen π π1 h)

theorem dropEach_length :
    ∀ (fs : List fieldInfo) (ks : List String), ks.Nodup →
      (∀ k ∈ ks, k ∈ fs.map fieldInfo.getFirstKey) →
      (dropEach ks fs).length + ks.length = fs.length := by
  intro fs
  induction fs with
  | nil =>
    intro ks _ h
    cases ks with
    | nil => rfl
    | cons k ks => exact absurd (h k (List.mem_cons_self _ _)) (by simp)
  | cons d rest ih =>
    intro ks hnd h
    simp only [dropEach]
    by_cases hm : d.getFirstKey ∈ ks
    · simp only [hm, if_true]
      have hsub : ∀ k ∈ ks.erase d.getFirstKey, k ∈ rest.map fieldInfo.getFirstKey := by
        intro k hk
        have hk1 := (List.Nodup.mem_erase_iff hnd).mp hk
        have hk2 := h k hk1.2
        simp only [List.map_cons, List.mem_cons] at hk2
        rcases hk2 with h2 | h2
        · exact absurd h2 hk1.1
        · exact h2
      have step := ih _ (hnd.erase _) hsub
      rw [List.length_erase_of_mem hm] at step
      have hpos : 0 < ks.length := List.length_pos_of_mem hm
      simp only [List.length_cons]
      omega
    · simp only [hm, if_false, List.length_cons]
      have hsub : ∀ k ∈ ks, k ∈ rest.map fieldInfo.getFirstKey := by
        intro k hk
        have hk2 := h k hk
        simp only [List.map_cons, List.mem_cons] at hk2
        rcases hk2 with h2 | h2
        · exact absurd (h2 ▸ hk) hm
        · exact h2
      have step := ih ks hnd hsub
      omega

theorem anyToOmit_perm (l l1 : List (String × Int)) (h : l.Perm l1) :
    anyToOmit l = anyToOmit l1 := by
  rw [Bool.eq_iff_iff, anyToOmit_iff, anyToOmit_iff]
  constructor
  · rintro ⟨e, he, hne⟩; exact ⟨e, h.mem_iff.mp he, hne⟩
  · rintro ⟨e, he, hne⟩; exact ⟨e, h.mem_iff.mpr he, hne⟩

theorem remainingOf_perm {V : Type} (R : Reflect V) (ω ω1 : MapRange) (x : Iface V)
    (hω : ω.Valid) (hω1 : ω1.Valid) : remainingOf R ω x = remainingOf R ω1 x := by
  unfold remainingOf omitStage
  simp only [headerLoop_eq, labelLoop_fresh]
  rw [anyToOmit_perm _ _ ((hω 0 _).trans (hω1 0 _).symm)]
  split
  · cases countRows R (inValueOf R x) (innerWasPointerOf R x) (fieldsOf R x)
        (List.range (R.Len (inValueOf R x))) (initCounters (fieldsOf R x) []) with
    | error err => rfl
    | ok counted =>
      simp only [elide_eq]
      rw [elideFields_perm _ _ _ ((hω 1 counted).trans (hω1 1 counted).symm)]
  · rfl

theorem writeToPlan_perm {V : Type} (R : Reflect V) (ω ω1 : MapRange) (x : Iface V)
    (omitHeaders : Bool) (hω : ω.Valid) (hω1 : ω1.Valid) :
    writeToPlan R ω x omitHeaders = writeToPlan R ω1 x omitHeaders := by
  unfold writeToPlan
  rw [remainingOf_perm R ω ω1 x hω hω1]

/-! ## The header switch -/

theorem writeToPlan_omitHeaders {V : Type} (R : Reflect V) (ω : MapRange) (x : Iface V) :
    (∃ err, writeToPlan R ω x true = ⟨[], some err⟩ ∧ writeToPlan R ω x false = ⟨[], some err⟩ ∧
      (ShapeOk R x → ∀ cols, remainingOf R ω x ≠ .ok cols)) ∨
    (∃ cols, ShapeOk R x ∧ remainingOf R ω x = .ok cols ∧
      writeToPlan R ω x false =
        ⟨cols.1 :: (writeToPlan R ω x true).rows, (writeToPlan R ω x true).stop⟩) := by
  unfold writeToPlan ShapeOk
  cases h1 : ensureInType (inTypeOf R x) with
  | some err => left; exact ⟨err, rfl, rfl, fun h => by simp at h⟩
  | none =>
    cases h2 : ensureInInnerType (innerTypeOf R x) with
    | some err => left; exact ⟨err, rfl, rfl, fun h => by simp at h⟩
    | none =>
      cases h3 : remainingOf R ω x with
      | error err => left; exact ⟨err, rfl, rfl, fun _ cols h => by cases h⟩
      | ok cols => right; exact ⟨cols, ⟨rfl, rfl⟩, rfl, by simp⟩

/-- C11. `omitHeaders` only suppresses the header: for every input and every writer
whose writes succeed, the calls (and so the rows) `writeTo` makes with
`omitHeaders = true` are those it makes with `omitHeaders = false` without the first;
and when the shape checks and the pre-pass succeed, that first call is the write of the
labels left after elision, the same elision in both modes. -/
theorem writeTo_omitHeaders {V σ : Type} (R : Reflect V) (w : SafeCSVWriter σ)
    (ω : MapRange) (s0 : σ) (x : Iface V) (hw : WritesSucceed w) :
    (writeTo R w ω (Sink.fresh s0) x true).1.calls =
        (writeTo R w ω (Sink.fresh s0) x false).1.calls.tail ∧
      rowsOf (writeTo R w ω (Sink.fresh s0) x true).1.calls =
        (rowsOf (writeTo R w ω (Sink.fresh s0) x false).1.calls).tail ∧
      (ShapeOk R x → ∀ cols, remainingOf R ω x = .ok cols →
        (writeTo R w ω (Sink.fresh s0) x false).1.calls =
          Call.Write cols.1 none :: (writeTo R w ω (Sink.fresh s0) x true).1.calls) := by
  have hT := (exec_log_of_writesSucceed w hw (writeToPlan R ω x true) s0).1
  have hF := (exec_log_of_writesSucceed w hw (writeToPlan R ω x false) s0).1
  simp only [writeTo_eq_exec]
  rcases writeToPlan_omitHeaders R ω x with ⟨err, h1, h2, hno⟩ | ⟨cols, _, hc, h2⟩
  · rw [hT, hF, h1, h2]
    refine ⟨rfl, rfl, ?_⟩
    intro hS cols hc
    exact absurd hc (hno hS cols)
  · rw [hT, hF, h2]
    refine ⟨by simp, ?_, ?_⟩
    · simp [rowsOf, written, Call.row?]
    · intro _ cols1 hc1
      rw [hc] at hc1
      injection hc1 with hc1
      subst hc1
      simp [written]

theorem writeTo_omitHeaders_witness :
    WritesSucceed okWriter ∧
    rowsOf (writeTo (valReflect nameTagFields) okWriter inOrder (Sink.fresh ()) tagsEmpty
        true).1.calls = [["A"], ["B"]] ∧
    rowsOf (writeTo (valReflect nameTagFields) okWriter inOrder (Sink.fresh ()) tagsEmpty
        false).1.calls = [["Name"], ["A"], ["B"]] := by
  have hw : WritesSucceed okWriter := fun _ _ => rfl
  have h := (writeTo_omitHeaders (valReflect nameTagFields) okWriter inOrder () tagsEmpty hw).2.1
  exact ⟨hw, by rw [h]; decide, by decide⟩

/-- C12. Determinism of elision: for every descriptor list (shared keys allowed), every
container and any two orders `ω`, `ω1` in which the counter map is ranged over, the
elision loop yields the same labels and descriptors from the same map, the elision block
as a whole yields the same result, and `writeTo` makes the same calls on the writer and
returns the same value. -/
theorem writeTo_order_independent {V σ : Type} (R : Reflect V) (w : SafeCSVWriter σ)
    (ω ω1 : MapRange) (writer : Sink σ) (x : Iface V) (omitHeaders : Bool)
    (hω : ω.Valid) (hω1 : ω1.Valid) :
    (∀ (inLen : Nat) (m : headersToOmit) (fs : List fieldInfo),
      elide inLen (ω 1 m) (fs.map fieldInfo.getFirstKey, fs) =
        elide inLen (ω1 1 m) (fs.map fieldInfo.getFirstKey, fs)) ∧
    remainingOf R ω x = remainingOf R ω1 x ∧
    writeTo R w ω writer x omitHeaders = writeTo R w ω1 writer x omitHeaders := by
  refine ⟨?_, remainingOf_perm R ω ω1 x hω hω1, ?_⟩
  · intro inLen m fs
    rw [elide_eq, elide_eq, elideFields_perm _ _ _ ((hω 1 m).trans (hω1 1 m).symm)]
  · rw [writeTo_eq_exec, writeTo_eq_exec, writeToPlan_perm R ω ω1 x omitHeaders hω hω1]

theorem writeTo_order_independent_witness :
    (inOrder.Valid ∧ reversed.Valid) ∧
    remainingOf (valReflect sharedKeyFields) inOrder sharedKeyInput =
      remainingOf (valReflect sharedKeyFields) reversed sharedKeyInput := by
  have h1 : inOrder.Valid := fun _ m => List.Perm.refl m
  have h2 : reversed.Valid := fun _ m => List.reverse_perm m
  exact ⟨⟨h1, h2⟩,
    (writeTo_order_independent (valReflect sharedKeyFields) okWriter inOrder reversed
      (Sink.fresh ()) sharedKeyInput false h1 h2).2.1⟩

/-! ## Lockstep and index safety -/

theorem removeColumn_index (key : String) (cols : List String × List fieldInfo)
    (h : cols.1.length = cols.2.length) :
    ∃ i, removeColumn key cols = (cols.1.eraseIdx i, cols.2.eraseIdx i) := by
  unfold removeColumn
  cases firstMatch key cols.1 0 with
  | some i => exact ⟨i, rfl⟩
  | none =>
    refine ⟨cols.1.length, ?_⟩
    rw [List.eraseIdx_of_length_le (le_refl _), List.eraseIdx_of_length_le (by rw [h])]

theorem removeColumn_length (key : String) (cols : List String × List fieldInfo)
    (h : cols.1.length = cols.2.length) :
    (removeColumn key cols).1.length = (removeColumn key cols).2.length := by
  obtain ⟨i, hi⟩ := removeColumn_index key cols h
  rw [hi]
  simp only [List.length_eraseIdx, h]

theorem elide_length (inLen : Nat) :
    ∀ (π : List (String × Int)) (cols : List String × List fieldInfo),
      cols.1.length = cols.2.length →
      (elide inLen π cols).1.length = (elide inLen π cols).2.length := by
  intro π
  induction π with
  | nil => intro cols h; exact h
  | cons e π ih =>
    intro cols h
    rcases e with ⟨key, c⟩
    simp only [elide]
    by_cases hc : c = (inLen : Int)
    · simp only [hc, if_true]
      exact ih _ (removeColumn_length key cols h)
    · simp only [hc, if_false]
      exact ih _ h

theorem fillRowChecked_eq {V : Type} (R : Reflect V) (rec : V) (wp : Bool) :
    ∀ (fs : List fieldInfo) (j : Nat) (labels : List String), j + fs.length ≤ labels.length →
      fillRowChecked R rec wp fs j labels = some (fillRow R rec wp fs j labels) := by
  intro fs
  induction fs with
  | nil => intro j labels _; rfl
  | cons f fs ih =>
    intro j labels h
    simp only [List.length_cons] at h
    have hj : j < labels.length := by omega
    simp only [fillRowChecked, fillRow, hj, if_true]
    cases getInnerField R rec wp f.IndexChain with
    | error err => rfl
    | ok v => exact ih (j + 1) _ (by simp only [List.length_set]; omega)

theorem fillRow_length {V : Type} (R : Reflect V) (rec : V) (wp : Bool) :
    ∀ (fs : List fieldInfo) (j : Nat) (labels row : List String),
      fillRow R rec wp fs j labels = .ok row → row.length = labels.length := by
  intro fs
  induction fs with
  | nil =>
    intro j labels row h
    simp only [fillRow, Except.ok.injEq] at h
    rw [h]
  | cons f fs ih =>
    intro j labels row h
    simp only [fillRow] at h
    cases hg : getInnerField R rec wp f.IndexChain with
    | error err => simp [hg] at h
    | ok v =>
      simp only [hg] at h
      have := ih _ _ _ h
      simpa using this

theorem emitChecked_of_length {V : Type} (R : Reflect V) (inValue : V) (wp : Bool)
    (fs : List fieldInfo) :
    ∀ (idxs : List Nat) (labels : List String), fs.length ≤ labels.length →
      emitChecked R inValue wp fs idxs labels = true := by
  intro idxs
  induction idxs with
  | nil => intro labels _; rfl
  | cons i rest ih =>
    intro labels h
    simp only [emitChecked, fillRowChecked_eq R _ wp fs 0 labels (by omega)]
    cases hf : fillRow R (R.Index inValue i) wp fs 0 labels with
    | error err => rfl
    | ok row =>
      exact ih row (by rw [fillRow_length R _ wp fs 0 labels row hf]; exact h)

/-- C13. Lockstep invariant and index safety of `writeTo`.  After construction the
label list is as long as the descriptor list; an elision step removes the element at one
and the same index from both lists (shared keys or not), so a step and the whole
elision loop keep the two lengths equal; the lists left by the elision block have equal
length; and in the emission loop, which refills that label buffer for every record, no
write `csvHeadersLabels[j]` is out of range, every row handed over having that
length. -/
theorem writeTo_lockstep {V σ : Type} (R : Reflect V) (w : SafeCSVWriter σ) (ω : MapRange)
    (s0 : σ) (x : Iface V) (omitHeaders : Bool) :
    (headerLoop (fieldsOf R x) 0 (List.replicate (fieldsOf R x).length "") []).1.length =
        (fieldsOf R x).length ∧
    (∀ (key : String) (cols : List String × List fieldInfo), cols.1.length = cols.2.length →
      (∃ i, removeColumn key cols = (cols.1.eraseIdx i, cols.2.eraseIdx i)) ∧
      (removeColumn key cols).1.length = (removeColumn key cols).2.length) ∧
    (∀ (inLen : Nat) (π : List (String × Int)) (cols : List String × List fieldInfo),
      cols.1.length = cols.2.length →
      (elide inLen π cols).1.length = (elide inLen π cols).2.length) ∧
    (∀ cols, remainingOf R ω x = .ok cols →
      cols.1.length = cols.2.length ∧
      emitChecked R (inValueOf R x) (innerWasPointerOf R x) cols.2
        (List.range (inLenOf R x)) cols.1 = true ∧
      ∀ row res, Call.Write row res ∈ (writeTo R w ω (Sink.fresh s0) x omitHeaders).1.calls →
        row.length = cols.2.length) := by
  refine ⟨?_, ?_, ?_, ?_⟩
  · simp [headerLoop_eq, labelLoop_fresh]
  · intro key cols h
    exact ⟨removeColumn_index key cols h, removeColumn_length key cols h⟩
  · intro inLen π cols h
    exact elide_length inLen π cols h
  · intro cols hc
    have hlen : cols.1.length = cols.2.length := by
      rcases remainingOf_cases R ω x with ⟨err, he⟩ | ⟨fs, hfs, _⟩
      · rw [he] at hc; cases hc
      · rw [hfs] at hc
        injection hc with hc
        subst hc
        simp
    refine ⟨hlen, emitChecked_of_length R _ _ cols.2 _ cols.1 (by rw [hlen]), ?_⟩
    intro row res hmem
    rw [writeTo_eq_exec] at hmem
    exact writeToPlan_rows_length R ω x omitHeaders cols hc row
      (exec_rows_subset w _ s0 row res hmem)

/-! ## First-match removal -/

theorem remainingOf_of_counted {V : Type} (R : Reflect V) (ω : MapRange) (x : Iface V)
    (counted : headersToOmit)
    (hany : anyToOmit (ω 0 (initCounters (fieldsOf R x) [])) = true)
    (hc : countRows R (inValueOf R x) (innerWasPointerOf R x) (fieldsOf R x)
      (List.range (inLenOf R x)) (initCounters (fieldsOf R x) []) = .ok counted) :
    remainingOf R ω x =
      .ok ((dropEach (pendingKeys (inLenOf R x) (ω 1 counted)) (fieldsOf R x)).map
          fieldInfo.getFirstKey,
        dropEach (pendingKeys (inLenOf R x) (ω 1 counted)) (fieldsOf R x)) := by
  unfold remainingOf omitStage
  unfold inLenOf at hc
  simp only [headerLoop_eq, labelLoop_fresh, hany, if_true, hc, elide_eq,
    elideFields_eq_dropEach, inLenOf]

theorem counted_keys {V : Type} (R : Reflect V) (x : Iface V) (counted : headersToOmit)
    (hc : countRows R (inValueOf R x) (innerWasPointerOf R x) (fieldsOf R x)
      (List.range (inLenOf R x)) (initCounters (fieldsOf R x) []) = .ok counted) :
    (counted.map Prod.fst).Nodup ∧
      ∀ k, k ∈ counted.map Prod.fst ↔ k ∈ (fieldsOf R x).map fieldInfo.getFirstKey := by
  have hkeys0 : ∀ d ∈ fieldsOf R x,
      d.getFirstKey ∈ (initCounters (fieldsOf R x) []).map Prod.fst := fun d hd =>
    (mem_keys_initCounters _ [] _).mpr (Or.inr (List.mem_map_of_mem _ hd))
  have hkeys := countRows_keys R _ _ _ _ _ counted hc hkeys0
  rw [hkeys]
  refine ⟨nodup_keys_initCounters _ [] (by simp), ?_⟩
  intro k
  rw [mem_keys_initCounters]
  simp

theorem mem_pendingKeys (ω : MapRange) (hω : ω.Valid) (j : Nat) (m : headersToOmit)
    (hm : (m.map Prod.fst).Nodup) (n : Nat) (k : String) :
    k ∈ pendingKeys n (ω j m) ↔ (k ∈ m.map Prod.fst ∧ m.get k = (n : Int)) := by
  unfold pendingKeys
  constructor
  · intro h
    obtain ⟨⟨k1, c⟩, he, hk⟩ := List.mem_map.mp h
    obtain ⟨he1, hc⟩ := List.mem_filter.mp he
    simp only [decide_eq_true_eq] at hc
    simp only at hk
    subst hk
    have := (mem_iff_get m hm k1 c).mp ((hω j m).mem_iff.mp he1)
    exact ⟨this.1, this.2.trans hc⟩
  · rintro ⟨hk, hg⟩
    exact List.mem_map.mpr ⟨(k, (n : Int)),
      List.mem_filter.mpr
        ⟨(hω j m).mem_iff.mpr ((mem_iff_get m hm k n).mpr ⟨hk, hg⟩), by simp⟩, rfl⟩

theorem nodup_pendingKeys (ω : MapRange) (hω : ω.Valid) (j : Nat) (m : headersToOmit)
    (hm : (m.map Prod.fst).Nodup) (n : Nat) : (pendingKeys n (ω j m)).Nodup := by
  unfold pendingKeys
  have hnd : ((ω j m).map Prod.fst).Nodup := ((hω j m).map Prod.fst).nodup_iff.mpr hm
  exact hnd.sublist ((List.filter_sublist _).map _)

theorem dropEach_sublist :
    ∀ (fs : List fieldInfo) (ks : List String), (dropEach ks fs).Sublist fs := by
  intro fs
  induction fs with
  | nil => intro ks; exact List.Sublist.refl _
  | cons d rest ih =>
    intro ks
    simp only [dropEach]
    by_cases hm : d.getFirstKey ∈ ks
    · simp only [hm, if_true]; exact (ih _).cons _
    · simp only [hm, if_false]; exact (ih _).cons₂ _

/-- C14. First-match removal preserving order, shared keys allowed.  When the pre-pass
has run and left the map `counted`, the elision loop leaves `dropEach pending fields`
and its labels, where `pending` are the keys whose counter equals the row count, each
once: walking the columns in order, the first column of each pending key is dropped and
every other column is kept.  Exactly one column goes per pending key, and the result is
a sublist of the original descriptors, so relative order is preserved. -/
theorem writeTo_first_match_removal {V : Type} (R : Reflect V) (ω : MapRange) (x : Iface V)
    (counted : headersToOmit) (hω : ω.Valid)
    (hany : anyToOmit (ω 0 (initCounters (fieldsOf R x) [])) = true)
    (hc : countRows R (inValueOf R x) (innerWasPointerOf R x) (fieldsOf R x)
      (List.range (inLenOf R x)) (initCounters (fieldsOf R x) []) = .ok counted) :
    remainingOf R ω x =
        .ok ((dropEach (pendingKeys (inLenOf R x) (ω 1 counted)) (fieldsOf R x)).map
            fieldInfo.getFirstKey,
          dropEach (pendingKeys (inLenOf R x) (ω 1 counted)) (fieldsOf R x)) ∧
      (pendingKeys (inLenOf R x) (ω 1 counted)).Nodup ∧
      (∀ k, k ∈ pendingKeys (inLenOf R x) (ω 1 counted) ↔
        (k ∈ (fieldsOf R x).map fieldInfo.getFirstKey ∧ counted.get k = (inLenOf R x : Int))) ∧
      (dropEach (pendingKeys (inLenOf R x) (ω 1 counted)) (fieldsOf R x)).Sublist (fieldsOf R x) ∧
      ((dropEach (pendingKeys (inLenOf R x) (ω 1 counted)) (fieldsOf R x)).map
          fieldInfo.getFirstKey).Sublist ((fieldsOf R x).map fieldInfo.getFirstKey) ∧
      (dropEach (pendingKeys (inLenOf R x) (ω 1 counted)) (fieldsOf R x)).length +
          (pendingKeys (inLenOf R x) (ω 1 counted)).length = (fieldsOf R x).length := by
  obtain ⟨hnd, hkeys⟩ := counted_keys R x counted hc
  have hmem : ∀ k, k ∈ pendingKeys (inLenOf R x) (ω 1 counted) ↔
      (k ∈ (fieldsOf R x).map fieldInfo.getFirstKey ∧ counted.get k = (inLenOf R x : Int)) := by
    intro k
    rw [mem_pendingKeys ω hω 1 counted hnd, hkeys]
  have hpn := nodup_pendingKeys ω hω 1 counted hnd (inLenOf R x)
  exact ⟨remainingOf_of_counted R ω x counted hany hc, hpn, hmem, dropEach_sublist _ _,
    (dropEach_sublist _ _).map _,
    dropEach_length _ _ hpn (fun k hk => ((hmem k).mp hk).1)⟩

theorem writeTo_first_match_removal_witness :
    inOrder.Valid ∧
    remainingOf (valReflect sharedKeyFields) inOrder sharedKeyInput =
      .ok (["x", "c"], [⟨"x", false, [1]⟩, ⟨"c", true, [2]⟩]) := by
  have hω : inOrder.Valid := fun _ m => List.Perm.refl m
  have h := (writeTo_first_match_removal (valReflect sharedKeyFields) inOrder sharedKeyInput
    [("x", 1), ("c", 0)] hω (by decide) (by rfl)).1
  exact ⟨hω, by rw [h]; rfl⟩

/-! ## The pre-pass counts every field -/

theorem prePass_get_of_nodup {V : Type} (R : Reflect V) (x : Iface V)
    (hk : ((fieldsOf R x).map fieldInfo.getFirstKey).Nodup)
    (cell : Nat → fieldInfo → String)
    (hp : ∀ i < inLenOf R x, ∀ d ∈ fieldsOf R x, projectAt R x i d = .ok (cell i d))
    (counted : headersToOmit)
    (hc : countRows R (inValueOf R x) (innerWasPointerOf R x) (fieldsOf R x)
      (List.range (inLenOf R x)) (initCounters (fieldsOf R x) []) = .ok counted) :
    ∀ d ∈ fieldsOf R x,
      counted.get d.getFirstKey =
        (if d.omitEmpty then 0 else -1) +
          (((List.range (inLenOf R x)).countP (fun i => decide (cell i d = "")) : Nat) : Int) := by
  intro d hd
  have hget := countRows_get R _ _ _ _ _ counted hc d.getFirstKey
  rw [get_initCounters _ [] hk d hd, hitsRows_of_nodup R _ _ _ hk d hd] at hget
  have hcount : (List.range (inLenOf R x)).countP
        (fun i => isEmptyCell R (R.Index (inValueOf R x) i) (innerWasPointerOf R x) d) =
      (List.range (inLenOf R x)).countP (fun i => decide (cell i d = "")) := by
    apply List.countP_congr
    intro i hi
    have := hp i (List.mem_range.mp hi) d hd
    simp only [projectAt] at this
    simp [isEmptyCell, this]
  rw [hcount] at hget
  exact hget

/-- C15, as the code has it: the pre-pass projects every field of every record and
counts an empty value for every field, `omitEmpty` or not.  With pairwise distinct keys
and projections that all succeed it ends with, for every descriptor, the counter `0`
(when `omitEmpty`) or `-1` (when not) plus the number of records whose value for that
field is empty; for a descriptor that is not `omitEmpty` this stays below the row
count. -/
theorem prePass_counters {V : Type} (R : Reflect V) (x : Iface V)
    (hk : ((fieldsOf R x).map fieldInfo.getFirstKey).Nodup)
    (cell : Nat → fieldInfo → String)
    (hp : ∀ i < inLenOf R x, ∀ d ∈ fieldsOf R x, projectAt R x i d = .ok (cell i d)) :
    ∃ counted,
      countRows R (inValueOf R x) (innerWasPointerOf R x) (fieldsOf R x)
        (List.range (inLenOf R x)) (initCounters (fieldsOf R x) []) = .ok counted ∧
      ∀ d ∈ fieldsOf R x,
        counted.get d.getFirstKey =
          (if d.omitEmpty then 0 else -1) +
            (((List.range (inLenOf R x)).countP (fun i => decide (cell i d = "")) : Nat) : Int) ∧
        (d.omitEmpty = false → counted.get d.getFirstKey < (inLenOf R x : Int)) := by
  obtain ⟨counted, hc⟩ := countRows_ok R (inValueOf R x) (innerWasPointerOf R x) (fieldsOf R x)
    (List.range (inLenOf R x)) (initCounters (fieldsOf R x) [])
    (fun i hi d hd => ⟨cell i d, hp i (List.mem_range.mp hi) d hd⟩)
  refine ⟨counted, hc, ?_⟩
  intro d hd
  have hget := prePass_get_of_nodup R x hk cell hp counted hc d hd
  refine ⟨hget, ?_⟩
  intro hno
  have hle := List.countP_le_length (fun i => decide (cell i d = ""))
    (l := List.range (inLenOf R x))
  rw [List.length_range] at hle
  rw [hget, hno]
  simp
  omega

theorem prePass_counters_witness :
    ((fieldsOf (valReflect nameTagFields) nameEmpty).map fieldInfo.getFirstKey).Nodup ∧
    ∃ counted,
      countRows (valReflect nameTagFields) (inValueOf (valReflect nameTagFields) nameEmpty)
        (innerWasPointerOf (valReflect nameTagFields) nameEmpty)
        (fieldsOf (valReflect nameTagFields) nameEmpty)
        (List.range (inLenOf (valReflect nameTagFields) nameEmpty))
        (initCounters (fieldsOf (valReflect nameTagFields) nameEmpty) []) = .ok counted ∧
      ∀ d ∈ fieldsOf (valReflect nameTagFields) nameEmpty,
        counted.get d.getFirstKey =
          (if d.omitEmpty then 0 else -1) +
            (((List.range (inLenOf (valReflect nameTagFields) nameEmpty)).countP
              (fun i => decide (cellOf (valReflect nameTagFields) nameEmpty i d = "")) : Nat) : Int) ∧
        (d.omitEmpty = false →
          counted.get d.getFirstKey < (inLenOf (valReflect nameTagFields) nameEmpty : Int)) := by
  have hk : ((fieldsOf (valReflect nameTagFields) nameEmpty).map fieldInfo.getFirstKey).Nodup := by
    decide
  exact ⟨hk, prePass_counters (valReflect nameTagFields) nameEmpty hk
    (cellOf (valReflect nameTagFields) nameEmpty) (by decide)⟩

/-- C15, as stated, fails.  `Name` is not `omitEmpty` and starts at the sentinel `-1`;
after the pre-pass over two records, one with an empty `Name`, its counter is `0`, not
`-1`.  And the pre-pass projects `Name` too: when `Name` has no string form the pre-pass
ends with that projection error. -/
theorem prePass_counts_every_field :
    (initCounters nameTagFields []).get "Name" = -1 ∧
    countRows (valReflect nameTagFields) (inValueOf (valReflect nameTagFields) nameEmpty)
        false nameTagFields [0, 1] (initCounters nameTagFields []) =
      .ok [("Name", 0), ("Tag", 2)] ∧
    countRows (valReflect nameTagFields) (inValueOf (valReflect nameTagFields) nameUnsupported)
        false nameTagFields [0] (initCounters nameTagFields []) =
      .error ⟨"unsupported type"⟩ :=
  ⟨rfl, rfl, rfl⟩

/-! ## A failing projection in the pre-pass -/

theorem countRow_error {V : Type} (R : Reflect V) (rec : V) (wp : Bool) :
    ∀ (fs : List fieldInfo) (m : headersToOmit),
      (∃ d ∈ fs, ∃ e0, getInnerField R rec wp d.IndexChain = .error e0) →
      ∃ d1 ∈ fs, ∃ err, getInnerField R rec wp d1.IndexChain = .error err ∧
        countRow R rec wp fs m = .error err := by
  intro fs
  induction fs with
  | nil => intro m h; obtain ⟨d, hd, _⟩ := h; simp at hd
  | cons f fs ih =>
    intro m h
    cases hg : getInnerField R rec wp f.IndexChain with
    | error err =>
      exact ⟨f, List.mem_cons_self _ _, err, hg, by simp only [countRow, hg]⟩
    | ok v =>
      obtain ⟨d, hd, e0, he0⟩ := h
      have hd1 : d ∈ fs := by
        rcases List.mem_cons.mp hd with h1 | h1
        · subst h1; rw [hg] at he0; cases he0
        · exact h1
      obtain ⟨d1, hd1m, err, herr, hrow⟩ := ih _ ⟨d, hd1, e0, he0⟩
      exact ⟨d1, List.mem_cons_of_mem _ hd1m, err, herr, by simp only [countRow, hg]; exact hrow⟩

theorem countRows_error {V : Type} (R : Reflect V) (inValue : V) (wp : Bool)
    (fs : List fieldInfo) :
    ∀ (idxs : List Nat) (m : headersToOmit),
      (∃ i ∈ idxs, ∃ d ∈ fs, ∃ e0, getInnerField R (R.Index inValue i) wp d.IndexChain = .error e0) →
      ∃ i1 ∈ idxs, ∃ d1 ∈ fs, ∃ err,
        getInnerField R (R.Index inValue i1) wp d1.IndexChain = .error err ∧
        countRows R inValue wp fs idxs m = .error err := by
  intro idxs
  induction idxs with
  | nil => intro m h; obtain ⟨i, hi, _⟩ := h; simp at hi
  | cons i rest ih =>
    intro m h
    by_cases hrow : ∃ d ∈ fs, ∃ e0, getInnerField R (R.Index inValue i) wp d.IndexChain = .error e0
    · obtain ⟨d1, hd1, err, herr, hc⟩ := countRow_error R _ wp fs m hrow
      exact ⟨i, List.mem_cons_self _ _, d1, hd1, err, herr, by simp only [countRows, hc]⟩
    · have hall : ∀ d ∈ fs, ∃ v, getInnerField R (R.Index inValue i) wp d.IndexChain = .ok v := by
        intro d hd
        cases hg : getInnerField R (R.Index inValue i) wp d.IndexChain with
        | error e0 => exact absurd ⟨d, hd, e0, hg⟩ hrow
        | ok v => exact ⟨v, rfl⟩
      obtain ⟨m1, hm1⟩ := countRow_ok R _ wp fs m hall
      obtain ⟨j, hj, d, hd, e0, he0⟩ := h
      have hj1 : j ∈ rest := by
        rcases List.mem_cons.mp hj with h1 | h1
        · subst h1; exact absurd ⟨d, hd, e0, he0⟩ hrow
        · exact h1
      obtain ⟨i1, hi1, d1, hd1, err, herr, hc⟩ := ih m1 ⟨j, hj1, d, hd, e0, he0⟩
      exact ⟨i1, List.mem_cons_of_mem _ hi1, d1, hd1, err, herr,
        by simp only [countRows, hm1]; exact hc⟩

theorem writeTo_of_remaining_error {V σ : Type} (R : Reflect V) (w : SafeCSVWriter σ)
    (ω : MapRange) (writer : Sink σ) (x : Iface V) (omitHeaders : Bool) (hS : ShapeOk R x)
    (err : GoError) (he : remainingOf R ω x = .error err) :
    writeTo R w ω writer x omitHeaders = (writer, some err) := by
  have hplan : writeToPlan R ω x omitHeaders = ⟨[], some err⟩ := by
    unfold writeToPlan
    rw [hS.1, hS.2, he]
  rw [writeTo_eq_exec, hplan, exec_stopped]

/-- C16. A projection failure with a non-sentinel counter is atomic: when the shape
checks pass, the fresh counter map holds a value other than `-1`, and the projection of
some field of some record fails, `writeTo` returns the error of a failing projection
(the one the pre-pass meets first) and leaves the writer as it was: no `Write`, no
`Flush`. -/
theorem writeTo_prePass_failure {V σ : Type} (R : Reflect V) (w : SafeCSVWriter σ)
    (ω : MapRange) (writer : Sink σ) (x : Iface V) (omitHeaders : Bool) (hω : ω.Valid)
    (hS : ShapeOk R x)
    (hany : ∃ e ∈ initCounters (fieldsOf R x) [], e.2 ≠ -1)
    (hfail : ∃ i < inLenOf R x, ∃ d ∈ fieldsOf R x, ∃ e0, projectAt R x i d = .error e0) :
    ∃ i < inLenOf R x, ∃ d ∈ fieldsOf R x, ∃ err,
      projectAt R x i d = .error err ∧
      writeTo R w ω writer x omitHeaders = (writer, some err) := by
  obtain ⟨i, hi, d, hd, e0, he0⟩ := hfail
  obtain ⟨i1, hi1, d1, hd1, err, herr, hc⟩ :=
    countRows_error R (inValueOf R x) (innerWasPointerOf R x) (fieldsOf R x)
      (List.range (inLenOf R x)) (initCounters (fieldsOf R x) [])
      ⟨i, List.mem_range.mpr hi, d, hd, e0, he0⟩
  refine ⟨i1, List.mem_range.mp hi1, d1, hd1, err, herr, ?_⟩
  apply writeTo_of_remaining_error R w ω writer x omitHeaders hS
  have hany1 : anyToOmit (ω 0 (initCounters (fieldsOf R x) [])) = true := by
    rw [anyToOmit_iff]
    obtain ⟨e, he, hne⟩ := hany
    exact ⟨e, (hω 0 _).mem_iff.mpr he, hne⟩
  unfold remainingOf omitStage
  unfold inLenOf at hc
  simp only [headerLoop_eq, labelLoop_fresh, hany1, if_true, hc]

theorem writeTo_prePass_failure_witness :
    (inOrder.Valid ∧ ShapeOk (valReflect nameTagFields) nameUnsupported) ∧
    ∃ i < inLenOf (valReflect nameTagFields) nameUnsupported,
      ∃ d ∈ fieldsOf (valReflect nameTagFields) nameUnsupported, ∃ err,
        projectAt (valReflect nameTagFields) nameUnsupported i d = .error err ∧
        writeTo (valReflect nameTagFields) okWriter inOrder (Sink.fresh ()) nameUnsupported
          false = (Sink.fresh (), some err) := by
  have hω : inOrder.Valid := fun _ m => List.Perm.refl m
  have hS : ShapeOk (valReflect nameTagFields) nameUnsupported := by decide
  exact ⟨⟨hω, hS⟩,
    writeTo_prePass_failure (valReflect nameTagFields) okWriter inOrder (Sink.fresh ())
      nameUnsupported false hω hS ⟨("Tag", 0), by decide, by decide⟩
      ⟨0, by decide, ⟨"Name", false, [0]⟩, by decide, ⟨"unsupported type"⟩, by rfl⟩⟩

/-- C17. Empty container: for a container without records and pairwise distinct keys,
`writeTo` with `omitHeaders = false` on a writer whose writes succeed makes exactly two
calls: the write of the header, which is the keys of the descriptors that are not
`omitEmpty`, in order, and the flush.  Every `omitEmpty` column is dropped. -/
theorem writeTo_empty_container {V σ : Type} (R : Reflect V) (w : SafeCSVWriter σ)
    (ω : MapRange) (s0 : σ) (x : Iface V) (hω : ω.Valid) (hS : ShapeOk R x)
    (hk : ((fieldsOf R x).map fieldInfo.getFirstKey).Nodup)
    (h0 : inLenOf R x = 0) (hw : WritesSucceed w) :
    remainingOf R ω x =
        .ok (((fieldsOf R x).filter (fun d => !d.omitEmpty)).map fieldInfo.getFirstKey,
          (fieldsOf R x).filter (fun d => !d.omitEmpty)) ∧
      (writeTo R w ω (Sink.fresh s0) x false).1.calls =
        [Call.Write (((fieldsOf R x).filter (fun d => !d.omitEmpty)).map fieldInfo.getFirstKey)
          none, Call.Flush] := by
  have hrem := remainingOf_of_nodup R ω x hω hk (fun _ _ => "")
    (fun i hi => by rw [h0] at hi; exact absurd hi (Nat.not_lt_zero i))
  have hfilter : (fieldsOf R x).filter (keepColumn (inLenOf R x) (fun _ _ => "")) =
      (fieldsOf R x).filter (fun d => !d.omitEmpty) := by
    apply List.filter_congr
    intro d _
    simp [keepColumn, h0]
  rw [hfilter] at hrem
  refine ⟨hrem, ?_⟩
  rw [writeTo_eq_exec, (exec_log_of_writesSucceed w hw _ s0).1,
    writeToPlan_of_shape R ω x false hS _ hrem, h0]
  simp [planRows, written]

theorem writeTo_empty_container_witness :
    (reversed.Valid ∧ ShapeOk (valReflect nameTagFields) noRecords ∧
      inLenOf (valReflect nameTagFields) noRecords = 0) ∧
    (writeTo (valReflect nameTagFields) okWriter reversed (Sink.fresh ()) noRecords false).1.calls =
      [Call.Write ["Name"] none, Call.Flush] := by
  have hω : reversed.Valid := fun _ m => List.reverse_perm m
  have hS : ShapeOk (valReflect nameTagFields) noRecords := by decide
  exact ⟨⟨hω, hS, rfl⟩,
    (writeTo_empty_container (valReflect nameTagFields) okWriter reversed () noRecords hω hS
      (by decide) rfl (fun _ _ => rfl)).2⟩

/-! ## The receive loop of `writeFromChan` -/

theorem projectAll_error {V : Type} (R : Reflect V) (rec : V) (wp : Bool) :
    ∀ (fs : List fieldInfo) (err : GoError), projectAll R rec wp fs = .error err →
      ∃ d ∈ fs, getInnerField R rec wp d.IndexChain = .error err := by
  intro fs
  induction fs with
  | nil => intro err h; cases h
  | cons f fs ih =>
    intro err h
    simp only [projectAll] at h
    cases hg : getInnerField R rec wp f.IndexChain with
    | error e =>
      simp only [hg, Except.error.injEq] at h
      exact ⟨f, List.mem_cons_self _ _, by rw [hg, h]⟩
    | ok v =>
      simp only [hg] at h
      cases hp : projectAll R rec wp fs with
      | error e =>
        simp only [hp, Except.error.injEq] at h
        obtain ⟨d, hd, hde⟩ := ih e hp
        exact ⟨d, List.mem_cons_of_mem _ hd, by rw [hde, h]⟩
      | ok vs => simp [hp] at h

theorem planChan_cases {V : Type} (R : Reflect V) (wp : Bool) (fs : List fieldInfo) :
    ∀ (c : List (Iface V)) (labels : List String), labels.length = fs.length →
      (∀ row ∈ (planChan R wp fs c labels).rows,
        ∃ v ∈ c, projectAll R (concreteOf R v) wp fs = .ok row) ∧
      (∀ err, (planChan R wp fs c labels).stop = some err →
        ∃ v ∈ c, ∃ d ∈ fs, getInnerField R (concreteOf R v) wp d.IndexChain = .error err) := by
  intro c
  induction c with
  | nil =>
    intro labels _
    exact ⟨fun row h => by simp [planChan] at h, fun err h => by simp [planChan] at h⟩
  | cons v rest ih =>
    intro labels hl
    simp only [planChan]
    rw [fillRow_eq_projectAll R _ wp fs labels hl]
    cases hp : projectAll R (getConcreteReflectValueAndType R v).1 wp fs with
    | error e =>
      refine ⟨fun row h => by simp at h, ?_⟩
      intro err herr
      simp only [Option.some.injEq] at herr
      subst herr
      obtain ⟨d, hd, hde⟩ := projectAll_error R _ wp fs e hp
      exact ⟨v, List.mem_cons_self _ _, d, hd, hde⟩
    | ok vs =>
      obtain ⟨hrows, hstop⟩ := ih vs (projectAll_length R _ wp fs vs hp)
      refine ⟨?_, ?_⟩
      · intro row hrow
        simp only [List.mem_cons] at hrow
        rcases hrow with h | h
        · exact ⟨v, List.mem_cons_self _ _, by rw [h]; exact hp⟩
        · obtain ⟨u, hu, hur⟩ := hrows row h
          exact ⟨u, List.mem_cons_of_mem _ hu, hur⟩
      · intro err herr
        obtain ⟨u, hu, d, hd, hde⟩ := hstop err herr
        exact ⟨u, List.mem_cons_of_mem _ hu, d, hd, hde⟩

theorem planChan_congr {V : Type} (R : Reflect V) (wp : Bool) (fs : List fieldInfo) :
    ∀ (c c1 : List (Iface V)) (labels : List String),
      c.map (concreteOf R) = c1.map (concreteOf R) →
      planChan R wp fs c labels = planChan R wp fs c1 labels := by
  intro c
  induction c with
  | nil =>
    intro c1 labels h
    cases c1 with
    | nil => rfl
    | cons v1 rest1 => simp at h
  | cons v rest ih =>
    intro c1 labels h
    cases c1 with
    | nil => simp at h
    | cons v1 rest1 =>
      simp only [List.map_cons, List.cons.injEq] at h
      have hv : (getConcreteReflectValueAndType R v).1 = (getConcreteReflectValueAndType R v1).1 :=
        h.1
      simp only [planChan, hv]
      cases fillRow R (getConcreteReflectValueAndType R v1).1 wp fs 0 labels with
      | error e => rfl
      | ok row => simp only [ih rest1 row h.2]

theorem writeFromChanPlan_of_shape {V : Type} (R : Reflect V) (firstValue : Iface V)
    (rest : List (Iface V)) (hT : ensureStructOrPtr (inTypeOf R firstValue) = none) :
    writeFromChanPlan R (firstValue :: rest) =
      ⟨(R.getStructInfo (inTypeOf R firstValue)).map fieldInfo.getFirstKey ::
        (planChan R (decide ((inTypeOf R firstValue).Kind = Kind.Ptr))
          (R.getStructInfo (inTypeOf R firstValue)) (firstValue :: rest)
          ((R.getStructInfo (inTypeOf R firstValue)).map fieldInfo.getFirstKey)).rows,
        (planChan R (decide ((inTypeOf R firstValue).Kind = Kind.Ptr))
          (R.getStructInfo (inTypeOf R firstValue)) (firstValue :: rest)
          ((R.getStructInfo (inTypeOf R firstValue)).map fieldInfo.getFirstKey)).stop⟩ := by
  unfold writeFromChanPlan
  simp only [hT, labelLoop_fresh]

/-- C18. Streaming validates only the first item.  Once the first item has passed
`ensureStructOrPtr`: (1) the call reads from a later item nothing but its concrete
value, so later items of any other types with the same concrete values give the same
calls and result; (2) an error returned is an error of a `Write`, the error state of
the writer, or the error of a projection made with the first item's pointer flag
through a descriptor of the first item's list, never a shape error of a later item;
(3) every row written is the header or the projection of an item through the first
item's descriptor list with the first item's pointer flag. -/
theorem writeFromChan_first_item_only {V σ : Type} (R : Reflect V) (w : SafeCSVWriter σ)
    (s0 : σ) (firstValue : Iface V) (rest : List (Iface V))
    (hT : ensureStructOrPtr (inTypeOf R firstValue) = none) :
    (∀ rest1 : List (Iface V), rest.map (concreteOf R) = rest1.map (concreteOf R) →
      writeFromChan R w (Sink.fresh s0) (firstValue :: rest1) =
        writeFromChan R w (Sink.fresh s0) (firstValue :: rest)) ∧
    (∀ err, (writeFromChan R w (Sink.fresh s0) (firstValue :: rest)).2 = some err →
      (∃ st row, (w.Write st row).2 = some err) ∨ (∃ st, w.Error st = some err) ∨
      (∃ v ∈ firstValue :: rest, ∃ d ∈ R.getStructInfo (inTypeOf R firstValue),
        getInnerField R (concreteOf R v) (decide ((inTypeOf R firstValue).Kind = Kind.Ptr))
          d.IndexChain = .error err)) ∧
    (∀ row res,
      Call.Write row res ∈ (writeFromChan R w (Sink.fresh s0) (firstValue :: rest)).1.calls →
      row = (R.getStructInfo (inTypeOf R firstValue)).map fieldInfo.getFirstKey ∨
      ∃ v ∈ firstValue :: rest,
        projectAll R (concreteOf R v) (decide ((inTypeOf R firstValue).Kind = Kind.Ptr))
          (R.getStructInfo (inTypeOf R firstValue)) = .ok row) := by
  have hplan := writeFromChanPlan_of_shape R firstValue rest hT
  obtain ⟨hrows, hstop⟩ := planChan_cases R (decide ((inTypeOf R firstValue).Kind = Kind.Ptr))
    (R.getStructInfo (inTypeOf R firstValue)) (firstValue :: rest)
    ((R.getStructInfo (inTypeOf R firstValue)).map fieldInfo.getFirstKey) (by simp)
  refine ⟨?_, ?_, ?_⟩
  · intro rest1 h
    rw [writeFromChan_eq_exec, writeFromChan_eq_exec, hplan,
      writeFromChanPlan_of_shape R firstValue rest1 hT]
    rw [planChan_congr R _ _ (firstValue :: rest1) (firstValue :: rest) _
      (by simp only [List.map_cons, h])]
  · intro err herr
    rw [writeFromChan_eq_exec] at herr
    rcases exec_log w (writeFromChanPlan R (firstValue :: rest)) s0 with
      ⟨_, hr⟩ | ⟨k, row, e, st, _, _, hst, h2, _⟩
    · rw [hr] at herr
      cases hs : (writeFromChanPlan R (firstValue :: rest)).stop with
      | none =>
        rw [hs] at herr
        exact Or.inr (Or.inl ⟨_, herr⟩)
      | some e =>
        rw [hs] at herr
        simp only [Option.some.injEq] at herr
        subst herr
        rw [hplan] at hs
        exact Or.inr (Or.inr (hstop e hs))
    · rw [h2] at herr
      simp only [Option.some.injEq] at herr
      subst herr
      exact Or.inl ⟨st, row, hst⟩
  · intro row res hmem
    rw [writeFromChan_eq_exec] at hmem
    have hin := exec_rows_subset w _ s0 row res hmem
    rw [hplan] at hin
    simp only [List.mem_cons] at hin
    rcases hin with h | h
    · exact Or.inl h
    · exact Or.inr (hrows row h)

theorem writeFromChan_first_item_only_witness :
    ensureStructOrPtr (inTypeOf (valReflect nameTagFields) firstItem) = none ∧
    writeFromChan (valReflect nameTagFields) okWriter (Sink.fresh ()) (firstItem :: otherItems) =
      writeFromChan (valReflect nameTagFields) okWriter (Sink.fresh ())
        (firstItem :: sameValueItems) ∧
    (writeFromChan (valReflect nameTagFields) okWriter (Sink.fresh ())
        (firstItem :: otherItems)).1.calls =
      [Call.Write ["Name", "Tag"] none, Call.Write ["A", ""] none, Call.Write ["B", "x"] none,
        Call.Write ["R", "S"] none, Call.Flush] := by
  have hT : ensureStructOrPtr (inTypeOf (valReflect nameTagFields) firstItem) = none := by decide
  have h := (writeFromChan_first_item_only (valReflect nameTagFields) okWriter ()
    firstItem sameValueItems hT).1 otherItems (by rfl)
  exact ⟨hT, h, by rfl⟩

/-! ## The pre-pass trigger -/

/-- With pairwise distinct keys the pre-pass is triggered exactly when some descriptor
is `omitEmpty`. -/
theorem anyToOmit_fresh_of_nodup (ω : MapRange) (hω : ω.Valid) (fs : List fieldInfo)
    (hk : (fs.map fieldInfo.getFirstKey).Nodup) :
    anyToOmit (ω 0 (initCounters fs [])) = true ↔ ∃ d ∈ fs, d.omitEmpty = true := by
  have hm0 : ((initCounters fs []).map Prod.fst).Nodup := nodup_keys_initCounters _ [] (by simp)
  rw [anyToOmit_iff]
  constructor
  · rintro ⟨⟨k, c⟩, he, hne⟩
    have hmem := (mem_iff_get _ hm0 k c).mp ((hω 0 _).mem_iff.mp he)
    have hkin : k ∈ fs.map fieldInfo.getFirstKey := by
      have := (mem_keys_initCounters fs [] k).mp hmem.1
      simpa using this
    obtain ⟨d, hd, hdk⟩ := List.mem_map.mp hkin
    refine ⟨d, hd, ?_⟩
    have hget := get_initCounters fs [] hk d hd
    rw [hdk, hmem.2] at hget
    by_contra hno
    simp only [Bool.not_eq_true] at hno
    rw [hno] at hget
    exact hne (by simpa using hget)
  · rintro ⟨d, hd, hom⟩
    have hkeys : d.getFirstKey ∈ (initCounters fs []).map Prod.fst :=
      (mem_keys_initCounters _ [] _).mpr (Or.inr (List.mem_map_of_mem _ hd))
    refine ⟨(d.getFirstKey, (initCounters fs []).get d.getFirstKey),
      (hω 0 _).mem_iff.mpr ((mem_iff_get _ hm0 _ _).mpr ⟨hkeys, rfl⟩), ?_⟩
    rw [get_initCounters fs [] hk d hd, hom]
    simp

/-- C19. The pre-pass trigger misses an `omitEmpty` descriptor whose key is shared with
a later descriptor that is not `omitEmpty`: the fresh counter map holds only `-1` for
the key, `anyToOmit` returns false in either range order, the elision block is skipped,
and the `omitEmpty` column, empty in the only record, is written. -/
theorem anyToOmit_misses_shadowed_omitEmpty :
    (∃ d ∈ shadowedFields, d.omitEmpty = true) ∧
    initCounters shadowedFields [] = [("x", -1)] ∧
    anyToOmit (inOrder 0 (initCounters shadowedFields [])) = false ∧
    anyToOmit (reversed 0 (initCounters shadowedFields [])) = false ∧
    (writeTo (valReflect shadowedFields) okWriter inOrder (Sink.fresh ()) shadowedInput
        false).1.calls =
      [Call.Write ["x", "x"] none, Call.Write ["", "b"] none, Call.Flush] :=
  ⟨⟨⟨"x", true, [0]⟩, by decide, rfl⟩, rfl, rfl, rfl, rfl⟩

end gocsv
